import Mathlib

/-!
Shallow embedding of the Benjamini-Hochberg FDR correction routine
`fdr_bh` from `test_fdr.py`.  Missing entries (`np.nan`) are modelled as
`none`; numeric p-values as rationals.  The three outputs of the routine
(significance flags, critical p-value, adjusted p-values) are collected in
`FDRResult`; a `none` in `crit_p` or `adj_p` models `np.nan`.
-/

/-- Result triple of `fdr_bh`: significance flags `h`, critical p-value
`crit_p` (`none` models NaN), adjusted p-values `adj_p` (`none` models NaN). -/
structure FDRResult where
  h : List Bool
  crit_p : Option ℚ
  adj_p : List (Option ℚ)
deriving DecidableEq, Repr

/-- Positions (offset by a running index) and values of the non-missing
entries, in input order: the `valid_mask` / `valid_pvals` step of `fdr_bh`. -/
def validPairs : ℕ → List (Option ℚ) → List (ℕ × ℚ)
  | _, [] => []
  | i, none :: rest => validPairs (i + 1) rest
  | i, some v :: rest => (i, v) :: validPairs (i + 1) rest

/-- Comparison by p-value used to model `np.argsort(valid_pvals)`. -/
def pairLe (a b : ℕ × ℚ) : Prop := a.2 ≤ b.2

instance : DecidableRel pairLe := fun a b => inferInstanceAs (Decidable (a.2 ≤ b.2))

instance : IsTotal (ℕ × ℚ) pairLe := ⟨fun a b => le_total a.2 b.2⟩

instance : IsTrans (ℕ × ℚ) pairLe := ⟨fun _ _ _ h h' => le_trans h h'⟩

/-- The valid entries sorted ascending by p-value, keeping original
positions: the `sorted_idx` / `sorted_pvals` step of `fdr_bh`. -/
def sortedPairsOf (pvals : List (Option ℚ)) : List (ℕ × ℚ) :=
  List.insertionSort pairLe (validPairs 0 pvals)

/-- The sorted valid p-values (`sorted_pvals`). -/
def sortedPOf (pvals : List (Option ℚ)) : List ℚ :=
  (sortedPairsOf pvals).map Prod.snd

/-- 0-based ranks `k` with `sorted_pvals[k] <= ((k+1)/m) * q`: the
`significant_mask` step of `fdr_bh` (with `bh_threshold = (ranks/m)*q`). -/
def bhPassing (m : ℕ) (q : ℚ) (s : List ℚ) : List ℕ :=
  (List.range m).filter (fun k => decide (s.getD k 0 ≤ ((k + 1 : ℚ) / (m : ℚ)) * q))

/-- Critical p-value over the sorted valid values: `0` when no rank passes,
else the sorted p-value at the largest passing rank (`crit_p`). -/
def bhCrit (m : ℕ) (q : ℚ) (s : List ℚ) : ℚ :=
  if bhPassing m q s = [] then 0 else s.getD ((bhPassing m q s).getLastD 0) 0

/-- Significance flags in sorted order: all-false when no rank passes, else
`sorted_pvals <= crit_p` elementwise (`h_valid` in `fdr_bh`). -/
def bhFlagsSorted (m : ℕ) (q : ℚ) (s : List ℚ) : List Bool :=
  if bhPassing m q s = [] then List.replicate s.length false
  else s.map (fun p => decide (p ≤ bhCrit m q s))

/-- The backward step-down pass computing adjusted p-values over the sorted
sequence (`rank` is 1-based, `m` the number of valid entries), translated
from `adj_p_sorted[-1] = sorted_pvals[-1]` followed by the loop
`adj_p_sorted[i] = min(1.0, min((m/(i+1)) * sorted_pvals[i], adj_p_sorted[i+1]))`. -/
def adjPass (m rank : ℕ) : List ℚ → List ℚ
  | [] => []
  | [p] => [p]
  | p :: p' :: rest =>
      let tail := adjPass m (rank + 1) (p' :: rest)
      min 1 (min (((m : ℚ) / (rank : ℚ)) * p) (tail.headD 1)) :: tail

/-- Adjusted p-values in sorted order for an input vector (`adj_p_sorted`). -/
def adjSortedOf (pvals : List (Option ℚ)) : List ℚ :=
  adjPass (validPairs 0 pvals).length 1 (sortedPOf pvals)

/-- Association list pairing each valid entry's original position with its
flag and adjusted p-value: models the `h_unsorted[sorted_idx] = h_valid` and
`adj_p_unsorted[sorted_idx] = adj_p_sorted` scatter steps of `fdr_bh`. -/
def assocOf (pvals : List (Option ℚ)) (q : ℚ) : List (ℕ × Bool × ℚ) :=
  List.zipWith (fun pr ba => (pr.1, ba)) (sortedPairsOf pvals)
    ((bhFlagsSorted (validPairs 0 pvals).length q (sortedPOf pvals)).zip
      (adjSortedOf pvals))

/-- Benjamini-Hochberg FDR correction, translated from `fdr_bh` in
`test_fdr.py`.  Returns the flags, the critical p-value and the adjusted
p-values, all in the original input order; missing positions carry
`false` / `none`. -/
def fdr_bh (pvals : List (Option ℚ)) (q : ℚ) : FDRResult :=
  if pvals.length = 0 then ⟨[], some 0, []⟩
  else if (validPairs 0 pvals).length = 0 then
    ⟨List.replicate pvals.length false, none, List.replicate pvals.length none⟩
  else
    ⟨(List.range pvals.length).map
        (fun i => (((assocOf pvals q).lookup i).map Prod.fst).getD false),
      some (bhCrit (validPairs 0 pvals).length q (sortedPOf pvals)),
      (List.range pvals.length).map
        (fun i => ((assocOf pvals q).lookup i).map Prod.snd)⟩

/-- Head of the backward pass: the adjusted p-value at the first rank of the
(suffix of the) sorted sequence. -/
def adjMin (m rank : ℕ) (l : List ℚ) : ℚ :=
  (adjPass m rank l).headD 1

/-- The raw step-down terms `(m/rank) * p` along a suffix of the sorted
sequence, used to state a closed form of the backward pass. -/
def termList (m rank : ℕ) : List ℚ → List ℚ
  | [] => []
  | p :: rest => ((m : ℚ) / (rank : ℚ)) * p :: termList m (rank + 1) rest

/-- Rank (0-based) of the first occurrence of value `v` in the sorted
sequence `s`: the number of entries strictly below `v`. -/
def rankOf (s : List ℚ) (v : ℚ) : ℕ :=
  s.countP (fun p => decide (p < v))

/-- The significance flag of a valid entry as a function of its value alone
(given the sorted valid values `s`): false when no rank passes, else the
comparison against the critical p-value. -/
def flagOf (m : ℕ) (q : ℚ) (s : List ℚ) (v : ℚ) : Bool :=
  if bhPassing m q s = [] then false else decide (v ≤ bhCrit m q s)

/-- The adjusted p-value of a valid entry as a function of its value alone
(given the sorted valid values `s`): the backward pass evaluated from the
first rank at which the value occurs. -/
def adjOf (m : ℕ) (s : List ℚ) (v : ℚ) : ℚ :=
  adjMin m (rankOf s v + 1) (s.drop (rankOf s v))

/-- The classic worked example from the spec and from Test 1 of
`test_fdr.py`. -/
def classicP : List (Option ℚ) :=
  [some (1/1000), some (8/1000), some (39/1000), some (41/1000), some (42/1000),
   some (60/1000), some (74/1000), some (205/1000), some (212/1000), some (216/1000)]

/-- The all-null example from the spec and from Test 2 of `test_fdr.py`. -/
def allNullP : List (Option ℚ) :=
  [some (6/100), some (8/100), some (10/100), some (15/100), some (20/100),
   some (30/100), some (40/100), some (50/100), some (60/100), some (70/100),
   some (80/100)]

theorem classicP_sortedPairs : sortedPairsOf classicP =
    [(0, 1/1000), (1, 8/1000), (2, 39/1000), (3, 41/1000), (4, 42/1000),
     (5, 60/1000), (6, 74/1000), (7, 205/1000), (8, 212/1000), (9, 216/1000)] := by
  norm_num [sortedPairsOf, validPairs, pairLe, classicP]

theorem classicP_sortedP : sortedPOf classicP =
    [1/1000, 8/1000, 39/1000, 41/1000, 42/1000, 60/1000, 74/1000, 205/1000,
     212/1000, 216/1000] := by
  rw [sortedPOf, classicP_sortedPairs]
  norm_num

theorem classicP_m : (validPairs 0 classicP).length = 10 := rfl

theorem classicP_passing : bhPassing 10 (1/20) (sortedPOf classicP) = [0, 1] := by
  rw [classicP_sortedP, bhPassing]
  norm_num [List.range_succ, List.filter_append, List.filter]

theorem classicP_crit : bhCrit 10 (1/20) (sortedPOf classicP) = 1/125 := by
  rw [bhCrit, classicP_passing, if_neg (by simp), classicP_sortedP]
  norm_num

theorem classicP_flagsSorted : bhFlagsSorted 10 (1/20) (sortedPOf classicP) =
    [true, true, false, false, false, false, false, false, false, false] := by
  rw [bhFlagsSorted, classicP_passing, if_neg (by simp), classicP_crit,
    classicP_sortedP]
  norm_num [decide_eq_true_eq, decide_eq_false_iff_not]

theorem classicP_adjSorted : adjSortedOf classicP =
    [1/100, 1/25, 21/250, 21/250, 21/250, 1/10, 37/350, 27/125, 27/125, 27/125] := by
  rw [adjSortedOf, classicP_m, classicP_sortedP]
  norm_num [adjPass, min_def]

theorem classicP_assoc : assocOf classicP (1/20) =
    [(0, (true, 1/100)), (1, (true, 1/25)), (2, (false, 21/250)),
     (3, (false, 21/250)), (4, (false, 21/250)), (5, (false, 1/10)),
     (6, (false, 37/350)), (7, (false, 27/125)), (8, (false, 27/125)),
     (9, (false, 27/125))] := by
  rw [assocOf, classicP_m, classicP_flagsSorted, classicP_adjSorted,
    classicP_sortedPairs]
  rfl

theorem classicP_fdr : fdr_bh classicP (1/20) =
    ⟨[true, true, false, false, false, false, false, false, false, false],
     some (1/125),
     [some (1/100), some (1/25), some (21/250), some (21/250), some (21/250),
      some (1/10), some (37/350), some (27/125), some (27/125), some (27/125)]⟩ := by
  rw [fdr_bh, if_neg (by simp [classicP]), if_neg (by simp [classicP_m]),
    classicP_m, classicP_crit, classicP_assoc]
  simp [List.range_succ, List.lookup, classicP]

/-! ### Structure of `validPairs` -/

theorem validPairs_shift (c : ℕ) :
    ∀ (l : List (Option ℚ)) (i : ℕ),
      validPairs (i + c) l = (validPairs i l).map (fun p => (p.1 + c, p.2))
  | [], _ => rfl
  | none :: rest, i => by
    show validPairs (i + c + 1) rest = _
    rw [Nat.add_right_comm]
    exact validPairs_shift c rest (i + 1)
  | some v :: rest, i => by
    show (i + c, v) :: validPairs (i + c + 1) rest = _
    rw [Nat.add_right_comm, validPairs_shift c rest (i + 1)]
    rfl

theorem validPairs_fst_lt :
    ∀ (l : List (Option ℚ)) (i : ℕ) (p : ℕ × ℚ),
      p ∈ validPairs i l → i ≤ p.1 ∧ p.1 < i + l.length
  | [], _, _, h => by simp [validPairs] at h
  | none :: rest, i, p, h => by
    have hlen : (none :: rest).length = rest.length + 1 := rfl
    have := validPairs_fst_lt rest (i + 1) p (by simpa [validPairs] using h)
    omega
  | some v :: rest, i, p, h => by
    have hlen : (some v :: rest).length = rest.length + 1 := rfl
    rcases (by simpa [validPairs] using h : p = (i, v) ∨ p ∈ validPairs (i + 1) rest) with
      h' | h'
    · subst h'; simp
    · have := validPairs_fst_lt rest (i + 1) p h'
      omega

theorem validPairs_fst_pairwise :
    ∀ (l : List (Option ℚ)) (i : ℕ),
      ((validPairs i l).map Prod.fst).Pairwise (· < ·)
  | [], _ => by simp [validPairs]
  | none :: rest, i => by
    simpa [validPairs] using validPairs_fst_pairwise rest (i + 1)
  | some v :: rest, i => by
    simp only [validPairs, List.map_cons, List.pairwise_cons]
    refine ⟨?_, validPairs_fst_pairwise rest (i + 1)⟩
    intro j hj
    rcases List.mem_map.1 hj with ⟨p, hp, rfl⟩
    exact lt_of_lt_of_le (Nat.lt_succ_self i) (validPairs_fst_lt rest (i + 1) p hp).1

theorem validPairs_fst_nodup (l : List (Option ℚ)) (i : ℕ) :
    ((validPairs i l).map Prod.fst).Nodup :=
  (validPairs_fst_pairwise l i).imp ne_of_lt

theorem validPairs_mem_getD :
    ∀ (l : List (Option ℚ)) (p : ℕ × ℚ),
      p ∈ validPairs 0 l → l.getD p.1 none = some p.2
  | [], p, h => by simp [validPairs] at h
  | none :: rest, p, h => by
    have h1 : validPairs 0 (none :: rest) =
        (validPairs 0 rest).map (fun p => (p.1 + 1, p.2)) := by
      have := validPairs_shift 1 rest 0
      simpa [validPairs] using this
    rw [h1] at h
    rcases List.mem_map.1 h with ⟨p', hp', rfl⟩
    simpa using validPairs_mem_getD rest p' hp'
  | some v :: rest, p, h => by
    have h1 : validPairs 0 (some v :: rest) =
        (0, v) :: (validPairs 0 rest).map (fun p => (p.1 + 1, p.2)) := by
      have := validPairs_shift 1 rest 0
      simpa [validPairs] using this
    rw [h1] at h
    rcases List.mem_cons.1 h with h | h
    · subst h; rfl
    · rcases List.mem_map.1 h with ⟨p', hp', rfl⟩
      simpa using validPairs_mem_getD rest p' hp'

theorem validPairs_getD_mem :
    ∀ (l : List (Option ℚ)) (i : ℕ) (v : ℚ),
      l.getD i none = some v → (i, v) ∈ validPairs 0 l
  | [], i, v, h => by simp at h
  | o :: rest, 0, v, h => by
    cases o with
    | none => simp at h
    | some w =>
      have : w = v := by simpa using h
      subst this
      have h1 : validPairs 0 (some w :: rest) =
          (0, w) :: (validPairs 0 rest).map (fun p => (p.1 + 1, p.2)) := by
        have := validPairs_shift 1 rest 0
        simpa [validPairs] using this
      rw [h1]; simp
  | o :: rest, i + 1, v, h => by
    have h' : rest.getD i none = some v := by simpa using h
    have hm := validPairs_getD_mem rest i v h'
    cases o with
    | none =>
      have h1 : validPairs 0 (none :: rest) =
          (validPairs 0 rest).map (fun p => (p.1 + 1, p.2)) := by
        have := validPairs_shift 1 rest 0
        simpa [validPairs] using this
      rw [h1]
      exact List.mem_map.2 ⟨(i, v), hm, rfl⟩
    | some w =>
      have h1 : validPairs 0 (some w :: rest) =
          (0, w) :: (validPairs 0 rest).map (fun p => (p.1 + 1, p.2)) := by
        have := validPairs_shift 1 rest 0
        simpa [validPairs] using this
      rw [h1]
      exact List.mem_cons_of_mem _ (List.mem_map.2 ⟨(i, v), hm, rfl⟩)

theorem validPairs_snd :
    ∀ (l : List (Option ℚ)) (i : ℕ),
      (validPairs i l).map Prod.snd = l.filterMap id
  | [], _ => rfl
  | none :: rest, i => by simp [validPairs, validPairs_snd rest (i + 1)]
  | some v :: rest, i => by simp [validPairs, validPairs_snd rest (i + 1)]

theorem validPairs_eq_nil_iff (l : List (Option ℚ)) :
    validPairs 0 l = [] ↔ ∀ o ∈ l, o = none := by
  constructor
  · intro h o ho
    by_contra hne
    rcases Option.ne_none_iff_exists'.1 hne with ⟨v, rfl⟩
    rcases List.getElem_of_mem ho with ⟨i, hi, hget⟩
    have : l.getD i none = some v := by
      rw [List.getD_eq_getElem?_getD, List.getElem?_eq_getElem hi, hget]; rfl
    have := validPairs_getD_mem l i v this
    simp [h] at this
  · intro h
    induction l with
    | nil => rfl
    | cons o rest ih =>
      have ho : o = none := h o (by simp)
      subst ho
      have h1 : validPairs 0 (none :: rest) =
          (validPairs 0 rest).map (fun p => (p.1 + 1, p.2)) := by
        have := validPairs_shift 1 rest 0
        simpa [validPairs] using this
      rw [h1, ih (fun o ho => h o (List.mem_cons_of_mem _ ho))]
      rfl

/-! ### The sorted valid values -/

theorem orderedInsert_map {α : Type} {β : Type} (r : α → α → Prop) (s : β → β → Prop)
    [DecidableRel r] [DecidableRel s] (f : α → β)
    (hf : ∀ a b, s (f a) (f b) ↔ r a b) (a : α) :
    ∀ l : List α,
      List.orderedInsert s (f a) (l.map f) = (List.orderedInsert r a l).map f
  | [] => rfl
  | b :: t => by
    by_cases h : r a b
    · simp [List.orderedInsert, h, (hf a b).2 h]
    · simp only [List.map_cons, List.orderedInsert, if_neg h,
        if_neg (fun hc => h ((hf a b).1 hc)), List.map_cons,
        orderedInsert_map r s f hf a t]

theorem insertionSort_map {α : Type} {β : Type} (r : α → α → Prop) (s : β → β → Prop)
    [DecidableRel r] [DecidableRel s] (f : α → β)
    (hf : ∀ a b, s (f a) (f b) ↔ r a b) :
    ∀ l : List α,
      List.insertionSort s (l.map f) = (List.insertionSort r l).map f
  | [] => rfl
  | a :: t => by
    simp only [List.map_cons, List.insertionSort,
      insertionSort_map r s f hf t, orderedInsert_map r s f hf a]

theorem sortedPOf_eq (pvals : List (Option ℚ)) :
    sortedPOf pvals = List.insertionSort (· ≤ ·) (pvals.filterMap id) := by
  rw [sortedPOf, sortedPairsOf, ← validPairs_snd pvals 0,
    insertionSort_map pairLe (· ≤ ·) Prod.snd (fun a b => Iff.rfl)]

theorem sortedPOf_sorted (pvals : List (Option ℚ)) :
    List.Sorted (· ≤ ·) (sortedPOf pvals) := by
  rw [sortedPOf_eq]
  exact List.sorted_insertionSort _ _

theorem sortedPOf_perm (pvals : List (Option ℚ)) :
    List.Perm (sortedPOf pvals) (pvals.filterMap id) := by
  rw [sortedPOf_eq]
  exact List.perm_insertionSort _ _

theorem sortedPOf_congr {l₁ l₂ : List (Option ℚ)}
    (h : List.Perm (l₁.filterMap id) (l₂.filterMap id)) : sortedPOf l₁ = sortedPOf l₂ :=
  List.eq_of_perm_of_sorted
    ((sortedPOf_perm l₁).trans (h.trans (sortedPOf_perm l₂).symm))
    (sortedPOf_sorted l₁) (sortedPOf_sorted l₂)

theorem sortedPairsOf_perm (pvals : List (Option ℚ)) :
    List.Perm (sortedPairsOf pvals) (validPairs 0 pvals) :=
  List.perm_insertionSort _ _

theorem sortedPairsOf_length (pvals : List (Option ℚ)) :
    (sortedPairsOf pvals).length = (validPairs 0 pvals).length :=
  (sortedPairsOf_perm pvals).length_eq

theorem sortedPOf_length (pvals : List (Option ℚ)) :
    (sortedPOf pvals).length = (validPairs 0 pvals).length := by
  rw [sortedPOf, List.length_map, sortedPairsOf_length]

theorem sortedPairsOf_fst_nodup (pvals : List (Option ℚ)) :
    ((sortedPairsOf pvals).map Prod.fst).Nodup :=
  (((sortedPairsOf_perm pvals).map Prod.fst).nodup_iff).2 (validPairs_fst_nodup pvals 0)

theorem sortedPairsOf_snd (pvals : List (Option ℚ)) (k : ℕ)
    (hk : k < (sortedPairsOf pvals).length) :
    (sortedPOf pvals).getD k 0 = ((sortedPairsOf pvals).getD k (0, 0)).2 := by
  rw [sortedPOf]
  rw [List.getD_eq_getElem?_getD, List.getD_eq_getElem?_getD,
    List.getElem?_eq_getElem (by simpa using hk), List.getElem?_eq_getElem hk,
    List.getElem_map]
  rfl

/-! ### The backward step-down pass -/

theorem adjPass_length (m : ℕ) :
    ∀ (rank : ℕ) (l : List ℚ), (adjPass m rank l).length = l.length
  | _, [] => rfl
  | _, [_] => rfl
  | rank, p :: p' :: rest => by
    simp [adjPass, adjPass_length m (rank + 1) (p' :: rest)]

theorem adjMin_single (m rank : ℕ) (p : ℚ) : adjMin m rank [p] = p := rfl

theorem adjMin_cons (m rank : ℕ) (p : ℚ) (l : List ℚ) (hl : l ≠ []) :
    adjMin m rank (p :: l) =
      min 1 (min (((m : ℚ) / (rank : ℚ)) * p) (adjMin m (rank + 1) l)) := by
  cases l with
  | nil => exact absurd rfl hl
  | cons p' rest => rfl

theorem adjPass_getD (m : ℕ) :
    ∀ (rank : ℕ) (l : List ℚ) (k : ℕ), k < l.length →
      (adjPass m rank l).getD k 0 = adjMin m (rank + k) (l.drop k)
  | rank, [], k, hk => by simp at hk
  | rank, [p], 0, _ => rfl
  | rank, [p], k + 1, hk => by simp at hk
  | rank, p :: p' :: rest, 0, _ => rfl
  | rank, p :: p' :: rest, k + 1, hk => by
    have hk' : k < (p' :: rest).length := by simpa using hk
    have ih := adjPass_getD m (rank + 1) (p' :: rest) k hk'
    have harith : rank + 1 + k = rank + (k + 1) := by omega
    simp only [adjPass, List.getD_cons_succ, List.drop_succ_cons]
    rw [ih, harith]

theorem adjMin_cons_le (m rank : ℕ) (p : ℚ) (l : List ℚ) (hl : l ≠ []) :
    adjMin m rank (p :: l) ≤ adjMin m (rank + 1) l := by
  rw [adjMin_cons m rank p l hl]
  exact le_trans (min_le_right _ _) (min_le_right _ _)

theorem adjMin_drop_succ_le (m rank : ℕ) (l : List ℚ) (j : ℕ) (hj : j + 1 < l.length) :
    adjMin m (rank + j) (l.drop j) ≤ adjMin m (rank + j + 1) (l.drop (j + 1)) := by
  have hdrop : l.drop j = l.get ⟨j, by omega⟩ :: l.drop (j + 1) := by
    rw [List.get_eq_getElem]
    exact List.drop_eq_getElem_cons (by omega)
  have hne : l.drop (j + 1) ≠ [] := by
    intro hnil
    have := List.drop_eq_nil_iff.1 hnil
    omega
  rw [hdrop]
  exact adjMin_cons_le m (rank + j) _ _ hne

theorem adjMin_drop_mono (m rank : ℕ) (l : List ℚ) (j k : ℕ) (hjk : j ≤ k)
    (hk : k < l.length) :
    adjMin m (rank + j) (l.drop j) ≤ adjMin m (rank + k) (l.drop k) := by
  induction k with
  | zero =>
    have : j = 0 := Nat.le_zero.1 hjk
    subst this; exact le_refl _
  | succ k ih =>
    rcases Nat.lt_or_ge j (k + 1) with h | h
    · have hj : j ≤ k := by omega
      have step := adjMin_drop_succ_le m rank l k hk
      exact le_trans (ih hj (by omega)) step
    · have : j = k + 1 := by omega
      subst this; exact le_refl _

theorem adjPass_mem_le_one (m : ℕ) (rank : ℕ) (l : List ℚ) :
    (∀ x ∈ l, x ≤ 1) → ∀ y ∈ adjPass m rank l, y ≤ 1 := by
  induction l generalizing rank with
  | nil => intro _ y hy; simp [adjPass] at hy
  | cons p rest ih =>
    cases rest with
    | nil =>
      intro hb y hy
      have : y = p := by simpa [adjPass] using hy
      subst this
      exact hb y (by simp)
    | cons p' rest' =>
      intro hb y hy
      rcases List.mem_cons.1 (by simpa [adjPass] using hy) with h | h
      · subst h; exact min_le_left _ _
      · exact ih (rank + 1) (fun x hx => hb x (List.mem_cons_of_mem _ hx)) y h

/-! ### `foldr min` facts and the closed form of the backward pass -/

theorem foldr_min_le_init : ∀ l : List ℚ, l.foldr min 1 ≤ 1
  | [] => le_refl _
  | x :: t => le_trans (min_le_right _ _) (foldr_min_le_init t)

theorem foldr_min_le_mem : ∀ (l : List ℚ) (x : ℚ), x ∈ l → l.foldr min 1 ≤ x
  | [], x, hx => by simp at hx
  | y :: t, x, hx => by
    rcases List.mem_cons.1 hx with h | h
    · subst h; exact min_le_left _ _
    · exact le_trans (min_le_right _ _) (foldr_min_le_mem t x h)

theorem foldr_min_eq_of_le (c : ℚ) :
    ∀ l : List ℚ, (∀ a ∈ l, c ≤ a) → l.foldr min c = c
  | [], _ => rfl
  | x :: t, h => by
    rw [List.foldr_cons, foldr_min_eq_of_le c t (fun a ha => h a (List.mem_cons_of_mem _ ha))]
    exact min_eq_right (h x (by simp))

theorem foldr_min_le_cases (q : ℚ) :
    ∀ l : List ℚ, l.foldr min 1 ≤ q → 1 ≤ q ∨ ∃ x ∈ l, x ≤ q
  | [], h => Or.inl h
  | x :: t, h => by
    rcases min_le_iff.1 h with h' | h'
    · exact Or.inr ⟨x, by simp, h'⟩
    · rcases foldr_min_le_cases q t h' with h'' | ⟨y, hy, hyq⟩
      · exact Or.inl h''
      · exact Or.inr ⟨y, List.mem_cons_of_mem _ hy, hyq⟩

theorem lt_foldr_min (q : ℚ) :
    ∀ l : List ℚ, q < 1 → (∀ x ∈ l, q < x) → q < l.foldr min 1
  | [], h1, _ => h1
  | x :: t, h1, h => by
    rw [List.foldr_cons]
    exact lt_min (h x (by simp)) (lt_foldr_min q t h1 fun y hy => h y (List.mem_cons_of_mem _ hy))

theorem termList_append (m : ℕ) :
    ∀ (rank : ℕ) (A B : List ℚ),
      termList m rank (A ++ B) = termList m rank A ++ termList m (rank + A.length) B
  | rank, [], B => by simp [termList]
  | rank, a :: A, B => by
    have harith : rank + 1 + A.length = rank + (A.length + 1) := by omega
    simp only [List.cons_append, termList, List.length_cons, List.append_eq]
    rw [termList_append m (rank + 1) A B, harith]

theorem mem_termList (m : ℕ) :
    ∀ (rank : ℕ) (l : List ℚ) (x : ℚ), x ∈ termList m rank l →
      ∃ j : ℕ, j < l.length ∧ x = ((m : ℚ) / ((rank + j : ℕ) : ℚ)) * l.getD j 0
  | rank, [], x, hx => by simp [termList] at hx
  | rank, p :: rest, x, hx => by
    rcases List.mem_cons.1 (by simpa [termList] using hx) with h | h
    · exact ⟨0, by simp, by simpa using h⟩
    · rcases mem_termList m (rank + 1) rest x h with ⟨j, hj, hx'⟩
      refine ⟨j + 1, by simpa using Nat.succ_lt_succ hj, ?_⟩
      rw [hx']
      norm_num [Nat.add_assoc, Nat.add_comm 1 j]

theorem termList_getD_mem (m : ℕ) :
    ∀ (rank : ℕ) (l : List ℚ) (j : ℕ), j < l.length →
      ((m : ℚ) / ((rank + j : ℕ) : ℚ)) * l.getD j 0 ∈ termList m rank l
  | rank, [], j, hj => by simp at hj
  | rank, p :: rest, 0, _ => by simp [termList]
  | rank, p :: rest, j + 1, hj => by
    have := termList_getD_mem m (rank + 1) rest j (by simpa using hj)
    simp only [termList, List.mem_cons]
    right
    have harith : rank + 1 + j = rank + (j + 1) := by omega
    rwa [harith] at this

theorem adjMin_eq_foldr (m : ℕ) :
    ∀ (rank : ℕ) (l : List ℚ), l ≠ [] → 1 ≤ rank → rank + l.length = m + 1 →
      (∀ x ∈ l, x ≤ 1) →
      adjMin m rank l = (termList m rank l).foldr min 1
  | rank, [], hne, _, _, _ => absurd rfl hne
  | rank, [p], _, hrank, hlen, hb => by
    have hrm : rank = m := by simpa using hlen
    have hm0 : (rank : ℚ) ≠ 0 := Nat.cast_ne_zero.mpr (by omega)
    rw [adjMin_single]
    simp only [termList, List.foldr_cons, List.foldr_nil]
    rw [hrm] at hm0 ⊢
    rw [div_self hm0, one_mul]
    exact (min_eq_left (hb p (by simp))).symm
  | rank, p :: p' :: rest, _, hrank, hlen, hb => by
    have hne' : (p' :: rest : List ℚ) ≠ [] := by simp
    have hlen' : rank + 1 + (p' :: rest).length = m + 1 := by
      simp only [List.length_cons] at hlen ⊢
      omega
    have ih := adjMin_eq_foldr m (rank + 1) (p' :: rest) hne' (by omega) hlen'
      (fun x hx => hb x (List.mem_cons_of_mem _ hx))
    rw [adjMin_cons m rank p _ hne', ih]
    have hstep : termList m rank (p :: p' :: rest) =
        ((m : ℚ) / (rank : ℚ)) * p :: termList m (rank + 1) (p' :: rest) := rfl
    rw [hstep, List.foldr_cons]
    exact min_eq_right (le_trans (min_le_right _ _) (foldr_min_le_init _))

/-! ### Sorted access helpers and the tie lemma -/

theorem getD_drop (s : List ℚ) (n t : ℕ) (h : n + t < s.length) :
    (s.drop n).getD t 0 = s.getD (n + t) 0 := by
  have ht : t < (s.drop n).length := by simp; omega
  rw [List.getD_eq_getElem?_getD, List.getD_eq_getElem?_getD,
    List.getElem?_eq_getElem ht, List.getElem?_eq_getElem h]
  simp [List.getElem_drop]

theorem getD_take (s : List ℚ) (n t : ℕ) (htn : t < n) (h : t < s.length) :
    (s.take n).getD t 0 = s.getD t 0 := by
  have ht : t < (s.take n).length := by simp; omega
  rw [List.getD_eq_getElem?_getD, List.getD_eq_getElem?_getD,
    List.getElem?_eq_getElem ht, List.getElem?_eq_getElem h]
  simp [List.getElem_take]

theorem sorted_getD_mono {s : List ℚ} (hs : List.Sorted (· ≤ ·) s) {i j : ℕ}
    (hij : i ≤ j) (hj : j < s.length) : s.getD i 0 ≤ s.getD j 0 := by
  have hi : i < s.length := lt_of_le_of_lt hij hj
  rw [List.getD_eq_getElem?_getD, List.getD_eq_getElem?_getD,
    List.getElem?_eq_getElem hi, List.getElem?_eq_getElem hj]
  simpa [List.get_eq_getElem] using
    hs.rel_get_of_le (a := ⟨i, hi⟩) (b := ⟨j, hj⟩) (by simpa using hij)

theorem adjMin_tie (m : ℕ) (s : List ℚ) (hs : List.Sorted (· ≤ ·) s)
    (hb : ∀ x ∈ s, 0 ≤ x ∧ x ≤ 1) (hm : s.length = m) (j k : ℕ) (hjk : j ≤ k)
    (hk : k < s.length) (heq : s.getD j 0 = s.getD k 0) :
    adjMin m (j + 1) (s.drop j) = adjMin m (k + 1) (s.drop k) := by
  have hj : j < s.length := lt_of_le_of_lt hjk hk
  have hneJ : s.drop j ≠ [] := by
    intro hnil; have := List.drop_eq_nil_iff.1 hnil; omega
  have hneK : s.drop k ≠ [] := by
    intro hnil; have := List.drop_eq_nil_iff.1 hnil; omega
  have hbJ : ∀ x ∈ s.drop j, x ≤ 1 := fun x hx => (hb x (List.mem_of_mem_drop hx)).2
  have hbK : ∀ x ∈ s.drop k, x ≤ 1 := fun x hx => (hb x (List.mem_of_mem_drop hx)).2
  have hlenJ : (j + 1) + (s.drop j).length = m + 1 := by simp; omega
  have hlenK : (k + 1) + (s.drop k).length = m + 1 := by simp; omega
  rw [adjMin_eq_foldr m (j + 1) (s.drop j) hneJ (by omega) hlenJ hbJ,
    adjMin_eq_foldr m (k + 1) (s.drop k) hneK (by omega) hlenK hbK]
  -- Decompose the suffix at `j` into the tied block and the suffix at `k`.
  have hsplit : s.drop j = (s.drop j).take (k - j) ++ s.drop k := by
    have h1 : ((s.drop j).take (k - j)) ++ ((s.drop j).drop (k - j)) = s.drop j :=
      List.take_append_drop _ _
    have h2 : (s.drop j).drop (k - j) = s.drop k := by
      rw [List.drop_drop]
      congr 1
      omega
    rw [h2] at h1
    exact h1.symm
  have hlenA : ((s.drop j).take (k - j)).length = k - j := by
    simp
    omega
  rw [hsplit, termList_append, List.foldr_append, hlenA]
  have harith : j + 1 + (k - j) = k + 1 := by omega
  rw [harith]
  -- Every term of the tied block dominates the tail minimum.
  refine foldr_min_eq_of_le _ _ ?_
  intro a ha
  rcases mem_termList m (j + 1) _ a ha with ⟨t, ht, hav⟩
  have htk : t < k - j := by rwa [hlenA] at ht
  have hjt : j + t < s.length := by omega
  have hAval : ((s.drop j).take (k - j)).getD t 0 = s.getD (j + t) 0 := by
    rw [getD_take _ _ _ htk (by simp; omega), getD_drop s j t (by omega)]
  -- The tied block is constant: every entry equals the common value.
  have hconst : s.getD (j + t) 0 = s.getD k 0 := by
    have h1 : s.getD j 0 ≤ s.getD (j + t) 0 := sorted_getD_mono hs (by omega) hjt
    have h2 : s.getD (j + t) 0 ≤ s.getD k 0 := sorted_getD_mono hs (by omega) hk
    have := heq
    linarith
  -- The tail minimum is at most its own first term.
  have hfirst : ((m : ℚ) / ((k + 1 + 0 : ℕ) : ℚ)) * (s.drop k).getD 0 0 ∈
      termList m (k + 1) (s.drop k) := by
    refine termList_getD_mem m (k + 1) (s.drop k) 0 ?_
    simp
    omega
  have hfirstval : (s.drop k).getD 0 0 = s.getD k 0 := by
    have := getD_drop s k 0 (by omega)
    simpa using this
  have htail_le : (termList m (k + 1) (s.drop k)).foldr min 1 ≤
      ((m : ℚ) / ((k + 1 : ℕ) : ℚ)) * s.getD k 0 := by
    have := foldr_min_le_mem _ _ hfirst
    rwa [hfirstval] at this
  -- And that first term is dominated by each tied-block term.
  have hv0 : 0 ≤ s.getD k 0 := by
    rw [List.getD_eq_getElem?_getD, List.getElem?_eq_getElem hk, Option.getD_some]
    exact (hb _ (List.getElem_mem _)).1
  have hdenom : ((m : ℚ) / ((k + 1 : ℕ) : ℚ)) ≤ ((m : ℚ) / ((j + 1 + t : ℕ) : ℚ)) := by
    have h1 : (0 : ℚ) < ((j + 1 + t : ℕ) : ℚ) := by positivity
    have h2 : ((j + 1 + t : ℕ) : ℚ) ≤ ((k + 1 : ℕ) : ℚ) := by
      have : j + 1 + t ≤ k + 1 := by omega
      exact_mod_cast this
    gcongr
  calc (termList m (k + 1) (s.drop k)).foldr min 1
      ≤ ((m : ℚ) / ((k + 1 : ℕ) : ℚ)) * s.getD k 0 := htail_le
    _ ≤ ((m : ℚ) / ((j + 1 + t : ℕ) : ℚ)) * s.getD k 0 :=
        mul_le_mul_of_nonneg_right hdenom hv0
    _ = a := by rw [hav, hAval, hconst]

/-! ### The passing ranks and the critical p-value -/

theorem mem_bhPassing (m : ℕ) (q : ℚ) (s : List ℚ) (k : ℕ) :
    k ∈ bhPassing m q s ↔ k < m ∧ s.getD k 0 ≤ ((k + 1 : ℚ) / (m : ℚ)) * q := by
  simp [bhPassing, List.mem_filter, List.mem_range, decide_eq_true_eq, and_comm]

theorem bhPassing_eq_nil_iff (m : ℕ) (q : ℚ) (s : List ℚ) :
    bhPassing m q s = [] ↔
      ∀ k, k < m → ¬s.getD k 0 ≤ ((k + 1 : ℚ) / (m : ℚ)) * q := by
  constructor
  · intro h k hk hle
    have : k ∈ bhPassing m q s := (mem_bhPassing m q s k).2 ⟨hk, hle⟩
    simp [h] at this
  · intro h
    rcases hne : bhPassing m q s with _ | ⟨k, t⟩
    · rfl
    · have hk : k ∈ bhPassing m q s := by rw [hne]; simp
      rcases (mem_bhPassing m q s k).1 hk with ⟨h1, h2⟩
      exact absurd h2 (h k h1)

theorem bhPassing_pairwise (m : ℕ) (q : ℚ) (s : List ℚ) :
    (bhPassing m q s).Pairwise (· < ·) :=
  (List.pairwise_lt_range m).filter _

theorem pairwise_lt_le_getLastD :
    ∀ (l : List ℕ) (d : ℕ), l.Pairwise (· < ·) → ∀ x ∈ l, x ≤ l.getLastD d
  | [], _, _, x, hx => by simp at hx
  | a :: t, d, hp, x, hx => by
    have hgl : (a :: t).getLastD d = t.getLastD a := by
      cases t <;> rfl
    rcases List.mem_cons.1 hx with h | h
    · subst h
      rcases List.mem_cons.1 (List.getLastD_mem_cons t x) with h' | h'
      · rw [hgl, h']
      · exact le_of_lt ((List.pairwise_cons.1 hp).1 _ (by rwa [hgl]))
    · rw [hgl]
      exact pairwise_lt_le_getLastD t a (List.pairwise_cons.1 hp).2 x h

theorem bhCrit_eq (m : ℕ) (q : ℚ) (s : List ℚ) (k : ℕ)
    (hk : k ∈ bhPassing m q s) (hmax : ∀ j ∈ bhPassing m q s, j ≤ k) :
    bhCrit m q s = s.getD k 0 := by
  have hne : bhPassing m q s ≠ [] := List.ne_nil_of_mem hk
  rw [bhCrit, if_neg hne]
  have hlast_mem : (bhPassing m q s).getLastD 0 ∈ bhPassing m q s := by
    rcases hner : bhPassing m q s with _ | ⟨a, t⟩
    · exact absurd hner hne
    · have := List.getLastD_mem_cons t a
      have hgl : (a :: t).getLastD 0 = t.getLastD a := by cases t <;> rfl
      rw [hgl]
      exact this
  have h1 : (bhPassing m q s).getLastD 0 ≤ k := hmax _ hlast_mem
  have h2 : k ≤ (bhPassing m q s).getLastD 0 :=
    pairwise_lt_le_getLastD _ 0 (bhPassing_pairwise m q s) k hk
  have : (bhPassing m q s).getLastD 0 = k := le_antisymm h1 h2
  rw [this]

/-! ### Association-list lookup -/

theorem lookup_eq_of_mem_keys {β : Type} :
    ∀ (l : List (ℕ × β)), (l.map Prod.fst).Nodup → ∀ p ∈ l, l.lookup p.1 = some p.2
  | [], _, p, hp => by simp at hp
  | (a, b) :: t, hnd, p, hp => by
    rcases List.mem_cons.1 hp with h | h
    · subst h
      simp [List.lookup]
    · have hnd2 : (a :: t.map Prod.fst).Nodup := by
        simpa only [List.map_cons] using hnd
      have hnd' := List.nodup_cons.1 hnd2
      have hne : p.1 ≠ a := by
        intro hEq
        exact hnd'.1 (hEq ▸ List.mem_map_of_mem Prod.fst h)
      have hbeq : (p.1 == a) = false := beq_eq_false_iff_ne.2 hne
      simp only [List.lookup, hbeq]
      exact lookup_eq_of_mem_keys t hnd'.2 p h

theorem lookup_eq_none_of_not_mem_keys {β : Type} :
    ∀ (l : List (ℕ × β)) (i : ℕ), i ∉ l.map Prod.fst → l.lookup i = none
  | [], _, _ => rfl
  | (a, b) :: t, i, hi => by
    have hne : i ≠ a := by
      intro hEq
      exact hi (by simp [hEq])
    have hbeq : (i == a) = false := beq_eq_false_iff_ne.2 hne
    simp only [List.lookup, hbeq]
    exact lookup_eq_none_of_not_mem_keys t i (fun hmem => hi (by simp at hmem ⊢; tauto))

/-! ### Pointwise access to the outputs -/

theorem getD_map_range {β : Type} (n : ℕ) (f : ℕ → β) (d : β) (i : ℕ) (hi : i < n) :
    ((List.range n).map f).getD i d = f i := by
  have h : i < ((List.range n).map f).length := by simpa using hi
  rw [List.getD_eq_getElem?_getD, List.getElem?_eq_getElem h]
  simp

theorem getD_map_range_ge {β : Type} (n : ℕ) (f : ℕ → β) (d : β) (i : ℕ) (hi : n ≤ i) :
    ((List.range n).map f).getD i d = d := by
  rw [List.getD_eq_getElem?_getD, List.getElem?_eq_none (by simpa using hi)]
  rfl

theorem bhFlagsSorted_length (m : ℕ) (q : ℚ) (s : List ℚ) :
    (bhFlagsSorted m q s).length = s.length := by
  rw [bhFlagsSorted]
  split <;> simp

theorem bhFlagsSorted_getD (m : ℕ) (q : ℚ) (s : List ℚ) (k : ℕ) (hk : k < s.length) :
    (bhFlagsSorted m q s).getD k false = flagOf m q s (s.getD k 0) := by
  rw [bhFlagsSorted, flagOf]
  split
  · rw [List.getD_eq_getElem?_getD, List.getElem?_eq_getElem (by simpa using hk)]
    simp
  · rw [List.getD_eq_getElem?_getD,
      List.getElem?_eq_getElem (by simpa using hk),
      List.getD_eq_getElem?_getD, List.getElem?_eq_getElem hk]
    simp

/-! ### First-occurrence ranks in the sorted sequence -/

theorem rankOf_le (s : List ℚ) (hs : List.Sorted (· ≤ ·) s) (k : ℕ) (hk : k < s.length) :
    rankOf s (s.getD k 0) ≤ k := by
  set v := s.getD k 0 with hv
  have hdrop0 : (s.drop k).countP (fun p => decide (p < v)) = 0 := by
    rw [List.countP_eq_zero]
    intro x hx
    rcases List.mem_iff_getElem.1 hx with ⟨t, ht, hxe⟩
    have htlen : k + t < s.length := by
      have := ht
      simp only [List.length_drop] at this
      omega
    have hxe' : x = s.getD (k + t) 0 := by
      rw [List.getD_eq_getElem?_getD, List.getElem?_eq_getElem htlen, ← hxe]
      simp [List.getElem_drop]
    simp only [decide_eq_true_eq, not_lt]
    rw [hxe', hv]
    exact sorted_getD_mono hs (Nat.le_add_right k t) htlen
  have hsum : s.countP (fun p => decide (p < v)) =
      (s.take k).countP (fun p => decide (p < v)) +
      (s.drop k).countP (fun p => decide (p < v)) := by
    conv_lhs => rw [← List.take_append_drop k s]
    rw [List.countP_append]
  have hr : rankOf s v = s.countP (fun p => decide (p < v)) := rfl
  rw [hr, hsum, hdrop0, Nat.add_zero]
  exact le_trans (List.countP_le_length _) (by rw [List.length_take]; omega)

theorem getD_rankOf (s : List ℚ) (hs : List.Sorted (· ≤ ·) s) (k : ℕ) (hk : k < s.length) :
    s.getD (rankOf s (s.getD k 0)) 0 = s.getD k 0 := by
  set v := s.getD k 0 with hv
  have hf_le : rankOf s v ≤ k := rankOf_le s hs k hk
  have hflen : rankOf s v < s.length := lt_of_le_of_lt hf_le hk
  have h1 : s.getD (rankOf s v) 0 ≤ v := sorted_getD_mono hs hf_le hk
  have h2 : v ≤ s.getD (rankOf s v) 0 := by
    by_contra hlt
    push_neg at hlt
    have hall : ∀ x ∈ s.take (rankOf s v + 1), (fun p => decide (p < v)) x = true := by
      intro x hx
      rcases List.mem_iff_getElem.1 hx with ⟨t, ht, hxe⟩
      have htf : t < rankOf s v + 1 := by
        have := ht
        simp only [List.length_take] at this
        omega
      have htlen : t < s.length := by omega
      have hxe' : x = s.getD t 0 := by
        rw [List.getD_eq_getElem?_getD, List.getElem?_eq_getElem htlen, ← hxe]
        simp [List.getElem_take]
      simp only [decide_eq_true_eq]
      rw [hxe']
      exact lt_of_le_of_lt (sorted_getD_mono hs (by omega) hflen) hlt
    have hcount_take : (s.take (rankOf s v + 1)).countP (fun p => decide (p < v)) =
        rankOf s v + 1 := by
      rw [List.countP_eq_length.2 hall, List.length_take]
      omega
    have hsum : s.countP (fun p => decide (p < v)) =
        (s.take (rankOf s v + 1)).countP (fun p => decide (p < v)) +
        (s.drop (rankOf s v + 1)).countP (fun p => decide (p < v)) := by
      conv_lhs => rw [← List.take_append_drop (rankOf s v + 1) s]
      rw [List.countP_append]
    have hr : rankOf s v = s.countP (fun p => decide (p < v)) := rfl
    omega
  exact le_antisymm h1 h2

theorem adjOf_getD (m : ℕ) (s : List ℚ) (hs : List.Sorted (· ≤ ·) s)
    (hb : ∀ x ∈ s, 0 ≤ x ∧ x ≤ 1) (hm : s.length = m) (k : ℕ) (hk : k < s.length) :
    adjOf m s (s.getD k 0) = adjMin m (k + 1) (s.drop k) := by
  rw [adjOf]
  exact adjMin_tie m s hs hb hm _ k (rankOf_le s hs k hk) hk (getD_rankOf s hs k hk)

/-! ### Structure of the association list -/

theorem getD_replicate_self {β : Type} (n i : ℕ) (d : β) :
    (List.replicate n d).getD i d = d := by
  rw [List.getD_eq_getElem?_getD]
  rcases Nat.lt_or_ge i n with h | h
  · rw [List.getElem?_eq_getElem (by simpa using h)]
    simp
  · rw [List.getElem?_eq_none (by simpa using h)]
    rfl

theorem zipWith_pair_fst {β γ : Type} :
    ∀ (A : List (ℕ × β)) (B : List γ), A.length ≤ B.length →
      (List.zipWith (fun pr ba => (pr.1, ba)) A B).map Prod.fst = A.map Prod.fst
  | [], _, _ => rfl
  | a :: A, [], h => by simp at h
  | a :: A, b :: B, h => by
    simp only [List.zipWith_cons_cons, List.map_cons]
    rw [zipWith_pair_fst A B (by simpa using h)]

theorem adjSortedOf_length (pvals : List (Option ℚ)) :
    (adjSortedOf pvals).length = (validPairs 0 pvals).length := by
  rw [adjSortedOf, adjPass_length, sortedPOf_length]

theorem assocOf_keys (pvals : List (Option ℚ)) (q : ℚ) :
    (assocOf pvals q).map Prod.fst = (sortedPairsOf pvals).map Prod.fst := by
  rw [assocOf]
  refine zipWith_pair_fst _ _ ?_
  rw [List.length_zip, bhFlagsSorted_length, sortedPOf_length, adjSortedOf_length,
    sortedPairsOf_length]
  simp

theorem assocOf_nodup_keys (pvals : List (Option ℚ)) (q : ℚ) :
    ((assocOf pvals q).map Prod.fst).Nodup := by
  rw [assocOf_keys]
  exact sortedPairsOf_fst_nodup pvals

theorem assocOf_lookup (pvals : List (Option ℚ)) (q : ℚ) (k : ℕ)
    (hk : k < (validPairs 0 pvals).length) :
    (assocOf pvals q).lookup ((sortedPairsOf pvals).getD k (0, 0)).1 =
      some ((bhFlagsSorted (validPairs 0 pvals).length q (sortedPOf pvals)).getD k false,
        (adjSortedOf pvals).getD k 0) := by
  have hkA : k < (sortedPairsOf pvals).length := by
    rw [sortedPairsOf_length]; exact hk
  have hkF : k < (bhFlagsSorted (validPairs 0 pvals).length q (sortedPOf pvals)).length := by
    rw [bhFlagsSorted_length, sortedPOf_length]; exact hk
  have hkJ : k < (adjSortedOf pvals).length := by
    rw [adjSortedOf_length]; exact hk
  have hentry : (assocOf pvals q)[k]? =
      some (((sortedPairsOf pvals).getD k (0, 0)).1,
        ((bhFlagsSorted (validPairs 0 pvals).length q (sortedPOf pvals)).getD k false,
         (adjSortedOf pvals).getD k 0)) := by
    rw [assocOf, List.zip_eq_zipWith, List.getElem?_zipWith,
      List.getElem?_eq_getElem hkA, List.getElem?_zipWith,
      List.getElem?_eq_getElem hkF, List.getElem?_eq_getElem hkJ]
    rw [List.getD_eq_getElem?_getD, List.getElem?_eq_getElem hkA,
      List.getD_eq_getElem?_getD, List.getElem?_eq_getElem hkF,
      List.getD_eq_getElem?_getD, List.getElem?_eq_getElem hkJ]
    rfl
  have hmem := List.getElem?_mem hentry
  exact lookup_eq_of_mem_keys _ (assocOf_nodup_keys pvals q) _ hmem

theorem mem_keys_iff_valid (pvals : List (Option ℚ)) (q : ℚ) (i : ℕ) :
    i ∈ (assocOf pvals q).map Prod.fst ↔ ∃ v, (i, v) ∈ validPairs 0 pvals := by
  rw [assocOf_keys]
  constructor
  · intro hi
    rcases List.mem_map.1 hi with ⟨p, hp, rfl⟩
    refine ⟨p.2, ?_⟩
    have := ((sortedPairsOf_perm pvals).mem_iff).1 hp
    simpa using this
  · rintro ⟨v, hv⟩
    have : (i, v) ∈ sortedPairsOf pvals := ((sortedPairsOf_perm pvals).mem_iff).2 hv
    exact List.mem_map.2 ⟨(i, v), this, rfl⟩

/-! ### Pointwise characterization of the outputs of `fdr_bh` -/

theorem fdr_bh_h_length (pvals : List (Option ℚ)) (q : ℚ) :
    (fdr_bh pvals q).h.length = pvals.length := by
  rw [fdr_bh]
  split
  next h1 => simp [h1.symm]
  next h1 =>
    split
    next h2 => simp
    next h2 => simp

theorem fdr_bh_adj_length (pvals : List (Option ℚ)) (q : ℚ) :
    (fdr_bh pvals q).adj_p.length = pvals.length := by
  rw [fdr_bh]
  split
  next h1 => simp [h1.symm]
  next h1 =>
    split
    next h2 => simp
    next h2 => simp

theorem fdr_bh_crit_eq (pvals : List (Option ℚ)) (q : ℚ)
    (hm : validPairs 0 pvals ≠ []) :
    (fdr_bh pvals q).crit_p =
      some (bhCrit (validPairs 0 pvals).length q (sortedPOf pvals)) := by
  have hn : ¬pvals.length = 0 := by
    intro h0
    have := List.length_eq_zero.1 h0
    subst this
    exact hm rfl
  have hm' : ¬(validPairs 0 pvals).length = 0 := by
    simpa [List.length_eq_zero] using hm
  rw [fdr_bh, if_neg hn, if_neg hm']

theorem fdr_bh_flag_missing (pvals : List (Option ℚ)) (q : ℚ) (i : ℕ)
    (hi : pvals.getD i none = none) : (fdr_bh pvals q).h.getD i false = false := by
  rw [fdr_bh]
  split
  next h1 => simp
  next h1 =>
    split
    next h2 => exact getD_replicate_self _ _ _
    next h2 =>
      show ((List.range pvals.length).map
        (fun j => (((assocOf pvals q).lookup j).map Prod.fst).getD false)).getD i false = false
      rcases Nat.lt_or_ge i pvals.length with hlt | hge
      · rw [getD_map_range _ _ _ i hlt]
        have hnk : i ∉ (assocOf pvals q).map Prod.fst := by
          intro hk
          rcases (mem_keys_iff_valid pvals q i).1 hk with ⟨v, hv⟩
          have := validPairs_mem_getD pvals (i, v) hv
          simp only at this
          rw [hi] at this
          exact Option.noConfusion this
        rw [lookup_eq_none_of_not_mem_keys _ _ hnk]
        rfl
      · exact getD_map_range_ge _ _ _ i hge

theorem fdr_bh_adj_missing (pvals : List (Option ℚ)) (q : ℚ) (i : ℕ)
    (hi : pvals.getD i none = none) : (fdr_bh pvals q).adj_p.getD i none = none := by
  rw [fdr_bh]
  split
  next h1 => simp
  next h1 =>
    split
    next h2 => exact getD_replicate_self _ _ _
    next h2 =>
      show ((List.range pvals.length).map
        (fun j => ((assocOf pvals q).lookup j).map Prod.snd)).getD i none = none
      rcases Nat.lt_or_ge i pvals.length with hlt | hge
      · rw [getD_map_range _ _ _ i hlt]
        have hnk : i ∉ (assocOf pvals q).map Prod.fst := by
          intro hk
          rcases (mem_keys_iff_valid pvals q i).1 hk with ⟨v, hv⟩
          have := validPairs_mem_getD pvals (i, v) hv
          simp only at this
          rw [hi] at this
          exact Option.noConfusion this
        rw [lookup_eq_none_of_not_mem_keys _ _ hnk]
        rfl
      · exact getD_map_range_ge _ _ _ i hge

theorem fdr_bh_flag_valid (pvals : List (Option ℚ)) (q : ℚ) (i : ℕ) (v : ℚ)
    (hv : pvals.getD i none = some v) :
    (fdr_bh pvals q).h.getD i false =
      flagOf (validPairs 0 pvals).length q (sortedPOf pvals) v := by
  have hvp : (i, v) ∈ validPairs 0 pvals := validPairs_getD_mem pvals i v hv
  have hsp : (i, v) ∈ sortedPairsOf pvals := ((sortedPairsOf_perm pvals).mem_iff).2 hvp
  rcases List.mem_iff_getElem.1 hsp with ⟨k, hk, hke⟩
  have hkv : k < (validPairs 0 pvals).length := by
    rw [← sortedPairsOf_length]; exact hk
  have hkey : (sortedPairsOf pvals).getD k (0, 0) = (i, v) := by
    rw [List.getD_eq_getElem?_getD, List.getElem?_eq_getElem hk, hke]
    rfl
  have hi_lt : i < pvals.length := by
    have := validPairs_fst_lt pvals 0 (i, v) hvp
    simpa using this.2
  have hn : ¬pvals.length = 0 := by omega
  have hm' : ¬(validPairs 0 pvals).length = 0 := by
    intro h0
    rw [List.length_eq_zero] at h0
    rw [h0] at hvp
    simp at hvp
  rw [fdr_bh, if_neg hn, if_neg hm']
  show ((List.range pvals.length).map
    (fun j => (((assocOf pvals q).lookup j).map Prod.fst).getD false)).getD i false = _
  rw [getD_map_range _ _ _ i hi_lt]
  have hlook := assocOf_lookup pvals q k hkv
  rw [hkey] at hlook
  rw [hlook]
  have hsk : (sortedPOf pvals).getD k 0 = v := by
    rw [sortedPairsOf_snd pvals k hk, hkey]
  have hklen : k < (sortedPOf pvals).length := by
    rw [sortedPOf_length]; exact hkv
  rw [Option.map_some', Option.getD_some, bhFlagsSorted_getD _ _ _ k hklen, hsk]

theorem fdr_bh_adj_valid (pvals : List (Option ℚ)) (q : ℚ)
    (hb : ∀ o ∈ pvals, ∀ x : ℚ, o = some x → 0 ≤ x ∧ x ≤ 1)
    (i : ℕ) (v : ℚ) (hv : pvals.getD i none = some v) :
    (fdr_bh pvals q).adj_p.getD i none =
      some (adjOf (validPairs 0 pvals).length (sortedPOf pvals) v) := by
  have hvp : (i, v) ∈ validPairs 0 pvals := validPairs_getD_mem pvals i v hv
  have hsp : (i, v) ∈ sortedPairsOf pvals := ((sortedPairsOf_perm pvals).mem_iff).2 hvp
  rcases List.mem_iff_getElem.1 hsp with ⟨k, hk, hke⟩
  have hkv : k < (validPairs 0 pvals).length := by
    rw [← sortedPairsOf_length]; exact hk
  have hkey : (sortedPairsOf pvals).getD k (0, 0) = (i, v) := by
    rw [List.getD_eq_getElem?_getD, List.getElem?_eq_getElem hk, hke]
    rfl
  have hi_lt : i < pvals.length := by
    have := validPairs_fst_lt pvals 0 (i, v) hvp
    simpa using this.2
  have hn : ¬pvals.length = 0 := by omega
  have hm' : ¬(validPairs 0 pvals).length = 0 := by
    intro h0
    rw [List.length_eq_zero] at h0
    rw [h0] at hvp
    simp at hvp
  rw [fdr_bh, if_neg hn, if_neg hm']
  show ((List.range pvals.length).map
    (fun j => ((assocOf pvals q).lookup j).map Prod.snd)).getD i none = _
  rw [getD_map_range _ _ _ i hi_lt]
  have hlook := assocOf_lookup pvals q k hkv
  rw [hkey] at hlook
  rw [hlook, Option.map_some']
  have hsk : (sortedPOf pvals).getD k 0 = v := by
    rw [sortedPairsOf_snd pvals k hk, hkey]
  have hklen : k < (sortedPOf pvals).length := by
    rw [sortedPOf_length]; exact hkv
  have hsb : ∀ x ∈ sortedPOf pvals, 0 ≤ x ∧ x ≤ 1 := by
    intro x hx
    have hx' : x ∈ pvals.filterMap id := ((sortedPOf_perm pvals).mem_iff).1 hx
    rcases List.mem_filterMap.1 hx' with ⟨o, ho, hid⟩
    exact hb o ho x (by simpa using hid)
  have hadj : (adjSortedOf pvals).getD k 0 =
      adjMin (validPairs 0 pvals).length (1 + k) ((sortedPOf pvals).drop k) := by
    rw [adjSortedOf, adjPass_getD _ 1 (sortedPOf pvals) k hklen]
  have hAO : adjOf (validPairs 0 pvals).length (sortedPOf pvals) v =
      adjMin (validPairs 0 pvals).length (k + 1) ((sortedPOf pvals).drop k) := by
    rw [← hsk]
    exact adjOf_getD (validPairs 0 pvals).length (sortedPOf pvals)
      (sortedPOf_sorted pvals) hsb (sortedPOf_length pvals) k hklen
  rw [hadj, hAO, Nat.add_comm 1 k]

/-! ### Further supporting lemmas -/

theorem FDRResult.ext_components (r1 r2 : FDRResult) (h1 : r1.h = r2.h)
    (h2 : r1.crit_p = r2.crit_p) (h3 : r1.adj_p = r2.adj_p) : r1 = r2 := by
  cases r1
  cases r2
  simp_all

theorem sortedPOf_bounds (pvals : List (Option ℚ))
    (hb : ∀ o ∈ pvals, ∀ x : ℚ, o = some x → 0 ≤ x ∧ x ≤ 1) :
    ∀ x ∈ sortedPOf pvals, 0 ≤ x ∧ x ≤ 1 := by
  intro x hx
  have hx' : x ∈ pvals.filterMap id := ((sortedPOf_perm pvals).mem_iff).1 hx
  rcases List.mem_filterMap.1 hx' with ⟨o, ho, hid⟩
  exact hb o ho x (by simpa using hid)

theorem adjMin_le_one (m rank : ℕ) (l : List ℚ) (hne : l ≠ [])
    (hb : ∀ x ∈ l, x ≤ 1) : adjMin m rank l ≤ 1 := by
  cases l with
  | nil => exact absurd rfl hne
  | cons p rest =>
    cases rest with
    | nil =>
      rw [adjMin_single]
      exact hb p (by simp)
    | cons p' rest' =>
      rw [adjMin_cons m rank p _ (by simp)]
      exact min_le_left _ _

theorem adjSortedOf_le_one (pvals : List (Option ℚ))
    (hb : ∀ o ∈ pvals, ∀ x : ℚ, o = some x → 0 ≤ x ∧ x ≤ 1) (k : ℕ)
    (hk : k < (validPairs 0 pvals).length) : (adjSortedOf pvals).getD k 0 ≤ 1 := by
  have hk' : k < (adjSortedOf pvals).length := by
    rw [adjSortedOf_length]; exact hk
  rw [List.getD_eq_getElem?_getD, List.getElem?_eq_getElem hk', Option.getD_some]
  exact adjPass_mem_le_one _ _ _ (fun x hx => (sortedPOf_bounds pvals hb x hx).2) _
    (List.getElem_mem _)

theorem fdr_bh_adj_at_rank (pvals : List (Option ℚ)) (q : ℚ)
    (hb : ∀ o ∈ pvals, ∀ x : ℚ, o = some x → 0 ≤ x ∧ x ≤ 1) (k : ℕ)
    (hk : k < (validPairs 0 pvals).length) :
    (fdr_bh pvals q).adj_p.getD ((sortedPairsOf pvals).getD k (0, 0)).1 none =
      some ((adjSortedOf pvals).getD k 0) := by
  have hkA : k < (sortedPairsOf pvals).length := by
    rw [sortedPairsOf_length]; exact hk
  have hkey : (sortedPairsOf pvals).getD k (0, 0) =
      (sortedPairsOf pvals).get ⟨k, hkA⟩ := by
    rw [List.getD_eq_getElem?_getD, List.getElem?_eq_getElem hkA]
    rfl
  set p := (sortedPairsOf pvals).get ⟨k, hkA⟩ with hp
  have hmem : p ∈ sortedPairsOf pvals := List.get_mem _ _ hkA
  have hvp : p ∈ validPairs 0 pvals := ((sortedPairsOf_perm pvals).mem_iff).1 hmem
  have hv : pvals.getD p.1 none = some p.2 := validPairs_mem_getD pvals p hvp
  have hklen : k < (sortedPOf pvals).length := by
    rw [sortedPOf_length]; exact hk
  have hsk : (sortedPOf pvals).getD k 0 = p.2 := by
    rw [sortedPairsOf_snd pvals k hkA, hkey]
  rw [hkey]
  rw [fdr_bh_adj_valid pvals q hb p.1 p.2 hv]
  have hAO : adjOf (validPairs 0 pvals).length (sortedPOf pvals) p.2 =
      adjMin (validPairs 0 pvals).length (k + 1) ((sortedPOf pvals).drop k) := by
    rw [← hsk]
    exact adjOf_getD (validPairs 0 pvals).length (sortedPOf pvals)
      (sortedPOf_sorted pvals) (sortedPOf_bounds pvals hb) (sortedPOf_length pvals) k hklen
  have hadj : (adjSortedOf pvals).getD k 0 =
      adjMin (validPairs 0 pvals).length (1 + k) ((sortedPOf pvals).drop k) := by
    rw [adjSortedOf, adjPass_getD _ 1 (sortedPOf pvals) k hklen]
  rw [hAO, hadj, Nat.add_comm 1 k]

theorem map_getD_range {β : Type} (l : List β) (d : β) :
    (List.range l.length).map (fun j => l.getD j d) = l := by
  refine List.ext_getElem (by simp) ?_
  intro i hi hil
  have hi' : i < l.length := by simpa using hil
  rw [List.getElem_map, List.getElem_range, List.getD_eq_getElem?_getD,
    List.getElem?_eq_getElem hi']
  rfl

theorem validPairs_append :
    ∀ (A B : List (Option ℚ)) (i : ℕ),
      validPairs i (A ++ B) = validPairs i A ++ validPairs (i + A.length) B
  | [], B, i => by simp [validPairs]
  | none :: A, B, i => by
    show validPairs (i + 1) (A ++ B) = validPairs (i + 1) A ++ _
    rw [validPairs_append A B (i + 1)]
    congr 2
    simp
    omega
  | some v :: A, B, i => by
    show (i, v) :: validPairs (i + 1) (A ++ B) = ((i, v) :: validPairs (i + 1) A) ++ _
    rw [validPairs_append A B (i + 1)]
    simp only [List.cons_append]
    congr 3
    simp
    omega

theorem fdr_bh_crit_nan (pvals : List (Option ℚ)) (q : ℚ) (hne : pvals ≠ [])
    (hm : validPairs 0 pvals = []) : (fdr_bh pvals q).crit_p = none := by
  have hn : ¬pvals.length = 0 := by
    simpa [List.length_eq_zero] using hne
  rw [fdr_bh, if_neg hn, if_pos (by simp [hm])]

theorem insert_getD {β : Type} (L : List β) (d x : β) (t i : ℕ) (ht : t ≤ L.length) :
    (L.take t ++ x :: L.drop t).getD i d =
      if i < t then L.getD i d else if i = t then x else L.getD (i - 1) d := by
  have hlt : (L.take t).length = t := by
    rw [List.length_take]
    omega
  rcases Nat.lt_or_ge i t with h1 | h1
  · rw [if_pos h1, List.getD_eq_getElem?_getD, List.getElem?_append_left (by omega),
      List.getElem?_take_of_lt h1, ← List.getD_eq_getElem?_getD]
  · rw [if_neg (by omega)]
    rcases Nat.eq_or_lt_of_le h1 with h2 | h2
    · rw [if_pos h2.symm, List.getD_eq_getElem?_getD,
        List.getElem?_append_right (by omega)]
      rw [hlt, ← h2, Nat.sub_self]
      simp
    · rw [if_neg (by omega), List.getD_eq_getElem?_getD,
        List.getElem?_append_right (by omega), hlt]
      have hidx : i - t = (i - t - 1) + 1 := by omega
      rw [hidx, List.getElem?_cons_succ]
      rcases Nat.lt_or_ge (i - 1) L.length with h3 | h3
      · rw [List.getElem?_eq_getElem (show i - t - 1 < (L.drop t).length by simp; omega),
          List.getD_eq_getElem?_getD, List.getElem?_eq_getElem h3]
        simp only [Option.getD_some]
        rw [List.getElem_drop]
        congr 1
        omega
      · rw [List.getElem?_eq_none (show (L.drop t).length ≤ i - t - 1 by simp; omega),
          List.getD_eq_getElem?_getD, List.getElem?_eq_none (by omega)]

/-! ### The adjusted p-value reproduces the significance decision -/

theorem rankOf_le_of_le (s : List ℚ) (hs : List.Sorted (· ≤ ·) s) (k : ℕ)
    (hk : k < s.length) (v : ℚ) (hvle : v ≤ s.getD k 0) : rankOf s v ≤ k := by
  have hdrop0 : (s.drop k).countP (fun p => decide (p < v)) = 0 := by
    rw [List.countP_eq_zero]
    intro x hx
    rcases List.mem_iff_getElem.1 hx with ⟨t, ht, hxe⟩
    have htlen : k + t < s.length := by
      have := ht
      simp only [List.length_drop] at this
      omega
    have hxe' : x = s.getD (k + t) 0 := by
      rw [List.getD_eq_getElem?_getD, List.getElem?_eq_getElem htlen, ← hxe]
      simp [List.getElem_drop]
    simp only [decide_eq_true_eq, not_lt]
    rw [hxe']
    exact le_trans hvle (sorted_getD_mono hs (Nat.le_add_right k t) htlen)
  have hsum : s.countP (fun p => decide (p < v)) =
      (s.take k).countP (fun p => decide (p < v)) +
      (s.drop k).countP (fun p => decide (p < v)) := by
    conv_lhs => rw [← List.take_append_drop k s]
    rw [List.countP_append]
  have hr : rankOf s v = s.countP (fun p => decide (p < v)) := rfl
  rw [hr, hsum, hdrop0, Nat.add_zero]
  exact le_trans (List.countP_le_length _) (by rw [List.length_take]; omega)

theorem bhPassing_getLastD_mem (m : ℕ) (q : ℚ) (s : List ℚ)
    (hne : bhPassing m q s ≠ []) :
    (bhPassing m q s).getLastD 0 ∈ bhPassing m q s := by
  rcases hner : bhPassing m q s with _ | ⟨a, t⟩
  · exact absurd hner hne
  · have hgl : (a :: t).getLastD 0 = t.getLastD a := by cases t <;> rfl
    rw [hgl]
    exact List.getLastD_mem_cons t a

theorem div_mul_le_iff_le_mul (m kk : ℕ) (hm : 0 < m) (hkk : 0 < kk) (p q : ℚ) :
    ((m : ℚ) / (kk : ℚ)) * p ≤ q ↔ p ≤ ((kk : ℚ) / (m : ℚ)) * q := by
  have hm' : (0 : ℚ) < (m : ℚ) := by exact_mod_cast hm
  have hkk' : (0 : ℚ) < (kk : ℚ) := by exact_mod_cast hkk
  rw [div_mul_eq_mul_div, div_le_iff hkk', div_mul_eq_mul_div, le_div_iff hm',
    mul_comm ((m : ℚ)) p, mul_comm q ((kk : ℚ))]

theorem adjOf_le_iff_flagOf (m : ℕ) (q : ℚ) (s : List ℚ)
    (hs : List.Sorted (· ≤ ·) s) (hb : ∀ x ∈ s, 0 ≤ x ∧ x ≤ 1)
    (hm : s.length = m) (kv : ℕ) (hkv : kv < s.length) :
    adjOf m s (s.getD kv 0) ≤ q ↔ flagOf m q s (s.getD kv 0) = true := by
  have hmpos : 1 ≤ m := by omega
  set v := s.getD kv 0 with hv
  have hf_le : rankOf s v ≤ kv := rankOf_le s hs kv hkv
  have hf_lt : rankOf s v < s.length := lt_of_le_of_lt hf_le hkv
  have hfval : s.getD (rankOf s v) 0 = v := getD_rankOf s hs kv hkv
  have hdne : s.drop (rankOf s v) ≠ [] := by
    intro hnil
    have := List.drop_eq_nil_iff.1 hnil
    omega
  have hCF : adjOf m s v = (termList m (rankOf s v + 1) (s.drop (rankOf s v))).foldr min 1 := by
    rw [adjOf]
    refine adjMin_eq_foldr m (rankOf s v + 1) _ hdne (by omega) (by simp; omega) ?_
    exact fun x hx => (hb x (List.mem_of_mem_drop hx)).2
  constructor
  · intro hadj
    rw [hCF] at hadj
    have hflag_of_pass : ∀ k0, k0 ∈ bhPassing m q s → rankOf s v ≤ k0 →
        flagOf m q s v = true := by
      intro k0 hk0 hfk0
      have hne_pass : bhPassing m q s ≠ [] := List.ne_nil_of_mem hk0
      have hkl_mem := bhPassing_getLastD_mem m q s hne_pass
      have hkl_lt : (bhPassing m q s).getLastD 0 < m :=
        ((mem_bhPassing m q s _).1 hkl_mem).1
      have hk0_le : k0 ≤ (bhPassing m q s).getLastD 0 :=
        pairwise_lt_le_getLastD _ 0 (bhPassing_pairwise m q s) k0 hk0
      rw [flagOf, if_neg hne_pass, decide_eq_true_eq, bhCrit, if_neg hne_pass]
      calc v = s.getD (rankOf s v) 0 := hfval.symm
        _ ≤ s.getD ((bhPassing m q s).getLastD 0) 0 :=
            sorted_getD_mono hs (by omega) (by omega)
    rcases foldr_min_le_cases q _ hadj with hq1 | ⟨x, hx, hxq⟩
    · -- q is at least 1: the last rank always passes
      have hlast : m - 1 ∈ bhPassing m q s := by
        rw [mem_bhPassing]
        refine ⟨by omega, ?_⟩
        have hcast : ((m - 1 : ℕ) : ℚ) + 1 = (m : ℚ) := by
          have : ((m - 1 : ℕ) : ℚ) = (m : ℚ) - 1 := by
            push_cast [Nat.cast_sub hmpos]
            ring
          rw [this]
          ring
        rw [hcast, div_self (by positivity : (m : ℚ) ≠ 0), one_mul]
        exact le_trans (hb _ (by
          rw [List.getD_eq_getElem?_getD, List.getElem?_eq_getElem (by omega), Option.getD_some]
          exact List.getElem_mem _)).2 hq1
      exact hflag_of_pass (m - 1) hlast (by omega)
    · -- some step-down term is at most q: its rank passes
      rcases mem_termList m (rankOf s v + 1) _ x hx with ⟨j, hj, hxe⟩
      have hjlen : j < s.length - rankOf s v := by
        simpa using hj
      have hk0_lt : rankOf s v + j < s.length := by omega
      have hxval : x = ((m : ℚ) / ((rankOf s v + 1 + j : ℕ) : ℚ)) *
          s.getD (rankOf s v + j) 0 := by
        rw [hxe, getD_drop s (rankOf s v) j hk0_lt]
      have hpass : rankOf s v + j ∈ bhPassing m q s := by
        rw [mem_bhPassing]
        refine ⟨by omega, ?_⟩
        have := (div_mul_le_iff_le_mul m (rankOf s v + 1 + j) (by omega) (by omega)
          (s.getD (rankOf s v + j) 0) q).1 (by rw [← hxval]; exact hxq)
        have hcast : ((rankOf s v + 1 + j : ℕ) : ℚ) = ((rankOf s v + j : ℕ) : ℚ) + 1 := by
          push_cast
          ring
        rwa [hcast] at this
      exact hflag_of_pass (rankOf s v + j) hpass (by omega)
  · intro hflag
    by_cases hpass : bhPassing m q s = []
    · rw [flagOf, if_pos hpass] at hflag
      exact absurd hflag (by simp)
    · rw [flagOf, if_neg hpass, decide_eq_true_eq, bhCrit, if_neg hpass] at hflag
      have hkl_mem := bhPassing_getLastD_mem m q s hpass
      rcases (mem_bhPassing m q s _).1 hkl_mem with ⟨hkl_lt, hkl_pred⟩
      have hkl_len : (bhPassing m q s).getLastD 0 < s.length := by omega
      have hf_kl : rankOf s v ≤ (bhPassing m q s).getLastD 0 :=
        rankOf_le_of_le s hs _ hkl_len v hflag
      have hterm : ((m : ℚ) / (((bhPassing m q s).getLastD 0 + 1 : ℕ) : ℚ)) *
          s.getD ((bhPassing m q s).getLastD 0) 0 ∈
          termList m (rankOf s v + 1) (s.drop (rankOf s v)) := by
        have hidx : (bhPassing m q s).getLastD 0 - rankOf s v <
            (s.drop (rankOf s v)).length := by
          rw [List.length_drop]
          omega
        have := termList_getD_mem m (rankOf s v + 1) (s.drop (rankOf s v))
          ((bhPassing m q s).getLastD 0 - rankOf s v) hidx
        have harith : rankOf s v + 1 + ((bhPassing m q s).getLastD 0 - rankOf s v) =
            (bhPassing m q s).getLastD 0 + 1 := by omega
        rw [harith, getD_drop s (rankOf s v) _ (by omega)] at this
        have harith2 : rankOf s v + ((bhPassing m q s).getLastD 0 - rankOf s v) =
            (bhPassing m q s).getLastD 0 := by omega
        rwa [harith2] at this
      have hterm_le : ((m : ℚ) / (((bhPassing m q s).getLastD 0 + 1 : ℕ) : ℚ)) *
          s.getD ((bhPassing m q s).getLastD 0) 0 ≤ q := by
        refine (div_mul_le_iff_le_mul m _ (by omega) (by omega) _ q).2 ?_
        have hcast : (((bhPassing m q s).getLastD 0 + 1 : ℕ) : ℚ) =
            (((bhPassing m q s).getLastD 0 : ℕ) : ℚ) + 1 := by
          push_cast
          ring
        rw [hcast]
        exact hkl_pred
      rw [hCF]
      exact le_trans (foldr_min_le_mem _ _ hterm) hterm_le

/-! ### Monotonicity and bounds of the value-determined adjusted p-value -/

theorem adjOf_mono (m : ℕ) (s : List ℚ) (hs : List.Sorted (· ≤ ·) s) (kv kw : ℕ)
    (hkv : kv < s.length) (hkw : kw < s.length)
    (hvw : s.getD kv 0 ≤ s.getD kw 0) :
    adjOf m s (s.getD kv 0) ≤ adjOf m s (s.getD kw 0) := by
  have h1 : rankOf s (s.getD kv 0) ≤ rankOf s (s.getD kw 0) := by
    refine List.countP_mono_left ?_
    intro x hx hxv
    simp only [decide_eq_true_eq] at hxv ⊢
    exact lt_of_lt_of_le hxv hvw
  have h2 : rankOf s (s.getD kw 0) < s.length :=
    lt_of_le_of_lt (rankOf_le s hs kw hkw) hkw
  rw [adjOf, adjOf]
  have := adjMin_drop_mono m 1 s (rankOf s (s.getD kv 0)) (rankOf s (s.getD kw 0)) h1 h2
  rwa [Nat.add_comm 1 (rankOf s (s.getD kv 0)), Nat.add_comm 1 (rankOf s (s.getD kw 0))]
    at this

theorem adjOf_le_one (m : ℕ) (s : List ℚ) (hs : List.Sorted (· ≤ ·) s)
    (hb : ∀ x ∈ s, x ≤ 1) (kv : ℕ) (hkv : kv < s.length) :
    adjOf m s (s.getD kv 0) ≤ 1 := by
  have hf_lt : rankOf s (s.getD kv 0) < s.length :=
    lt_of_le_of_lt (rankOf_le s hs kv hkv) hkv
  have hdne : s.drop (rankOf s (s.getD kv 0)) ≠ [] := by
    intro hnil
    have := List.drop_eq_nil_iff.1 hnil
    omega
  exact adjMin_le_one _ _ _ hdne (fun x hx => hb x (List.mem_of_mem_drop hx))

/-! ### getElem / getD bridges -/

theorem getElem_as_getD {β : Type} (l : List β) (t : ℕ) (d : β) (h : t < l.length) :
    l.getD t d = l.get ⟨t, h⟩ := by
  rw [List.getD_eq_getElem?_getD, List.getElem?_eq_getElem h]
  rfl

theorem getD_map {β γ : Type} (l : List β) (g : β → γ) (d : γ) (d0 : β) (t : ℕ)
    (h : t < l.length) : (l.map g).getD t d = g (l.getD t d0) := by
  rw [List.getD_eq_getElem?_getD, List.getElem?_eq_getElem (by simpa using h),
    List.getElem_map, List.getD_eq_getElem?_getD, List.getElem?_eq_getElem h]
  rfl

/-! ### Evaluation of the all-null example -/

theorem allNullP_sortedP : sortedPOf allNullP =
    [6/100, 8/100, 10/100, 15/100, 20/100, 30/100, 40/100, 50/100, 60/100,
     70/100, 80/100] := by
  norm_num [sortedPOf, sortedPairsOf, validPairs, pairLe, allNullP]

theorem allNullP_m : (validPairs 0 allNullP).length = 11 := rfl

theorem allNullP_no_pass : ∀ k, k < (validPairs 0 allNullP).length →
    ¬(sortedPOf allNullP).getD k 0 ≤
      ((k + 1 : ℚ) / (((validPairs 0 allNullP).length : ℕ) : ℚ)) * (1/20) := by
  simp only [allNullP_m, allNullP_sortedP]
  intro k hk
  interval_cases k <;> norm_num

/-! ### Claim theorems -/

/-- C1, counterexample: on the classic worked example with q = 0.05 the code
does NOT return 4 significant tests with critical p-value 0.041; ranks 3 and 4
fail their thresholds (0.039 > 0.015, 0.041 > 0.020). -/
theorem classic_example_claim_false :
    (fdr_bh classicP (1/20)).h.count true ≠ 4 ∧
    (fdr_bh classicP (1/20)).crit_p ≠ some (41/1000) := by
  constructor
  · intro h1
    rw [classicP_fdr] at h1
    simp at h1
  · intro h2
    rw [classicP_fdr] at h2
    simp only [Option.some.injEq] at h2
    norm_num at h2

/-- C1, amended: for the input p-value vector
[0.001, 0.008, 0.039, 0.041, 0.042, 0.060, 0.074, 0.205, 0.212, 0.216]
with q = 0.05, `fdr_bh` returns significance flags with exactly 2 entries true
(the tests at ranks 1 and 2) and critical p-value 0.008. -/
theorem classic_example_two_significant :
    (fdr_bh classicP (1/20)).h =
      [true, true, false, false, false, false, false, false, false, false] ∧
    (fdr_bh classicP (1/20)).crit_p = some (8/1000) ∧
    (fdr_bh classicP (1/20)).h.count true = 2 := by
  refine ⟨?_, ?_, ?_⟩
  · rw [classicP_fdr]
  · rw [classicP_fdr]
    simp only [Option.some.injEq]
    norm_num
  · rw [classicP_fdr]
    simp

/-- C2: for every input vector of p-values in [0,1] with at least one valid
entry and every q, the adjusted p-values of `fdr_bh`, read over the sorted
valid p-values, satisfy the step-down recursion: the value at the last rank
equals its raw p-value, each earlier rank's value is the minimum of
(m / rank) x raw p-value and the next rank's value, and every adjusted value
is at most 1. -/
theorem fdr_bh_adjusted_stepdown (pvals : List (Option ℚ)) (q : ℚ)
    (hb : ∀ o ∈ pvals, ∀ x : ℚ, o = some x → 0 ≤ x ∧ x ≤ 1)
    (hm : 1 ≤ (validPairs 0 pvals).length) :
    (∀ k, k < (validPairs 0 pvals).length →
      (fdr_bh pvals q).adj_p.getD ((sortedPairsOf pvals).getD k (0, 0)).1 none =
        some ((adjSortedOf pvals).getD k 0)) ∧
    (adjSortedOf pvals).getD ((validPairs 0 pvals).length - 1) 0 =
      (sortedPOf pvals).getD ((validPairs 0 pvals).length - 1) 0 ∧
    (∀ k, k + 1 < (validPairs 0 pvals).length →
      (adjSortedOf pvals).getD k 0 =
        min ((((validPairs 0 pvals).length : ℚ) / ((k + 1 : ℕ) : ℚ)) *
          (sortedPOf pvals).getD k 0) ((adjSortedOf pvals).getD (k + 1) 0)) ∧
    (∀ k, k < (validPairs 0 pvals).length → (adjSortedOf pvals).getD k 0 ≤ 1) := by
  have hs_len : (sortedPOf pvals).length = (validPairs 0 pvals).length :=
    sortedPOf_length pvals
  refine ⟨fun k hk => fdr_bh_adj_at_rank pvals q hb k hk, ?_, ?_,
    fun k hk => adjSortedOf_le_one pvals hb k hk⟩
  · have hlt : (validPairs 0 pvals).length - 1 < (sortedPOf pvals).length := by omega
    rw [adjSortedOf, adjPass_getD _ 1 _ ((validPairs 0 pvals).length - 1) hlt]
    have h2 : (sortedPOf pvals).drop (validPairs 0 pvals).length = [] := by
      rw [List.drop_eq_nil_iff]
      omega
    have hdrop : (sortedPOf pvals).drop ((validPairs 0 pvals).length - 1) =
        [(sortedPOf pvals).getD ((validPairs 0 pvals).length - 1) 0] := by
      have h1 := List.drop_eq_getElem_cons (l := sortedPOf pvals) hlt
      have h3 : (validPairs 0 pvals).length - 1 + 1 = (validPairs 0 pvals).length := by
        omega
      rw [h3] at h1
      rw [h1, h2, getElem_as_getD _ _ 0 hlt, List.get_eq_getElem]
    rw [hdrop, adjMin_single]
  · intro k hk
    have hklt : k < (sortedPOf pvals).length := by omega
    have hk1lt : k + 1 < (sortedPOf pvals).length := by omega
    rw [adjSortedOf, adjPass_getD _ 1 _ k hklt, adjPass_getD _ 1 _ (k + 1) hk1lt]
    have hdropk : (sortedPOf pvals).drop k =
        (sortedPOf pvals).getD k 0 :: (sortedPOf pvals).drop (k + 1) := by
      rw [getElem_as_getD _ _ 0 hklt, List.get_eq_getElem]
      exact List.drop_eq_getElem_cons hklt
    have hne : (sortedPOf pvals).drop (k + 1) ≠ [] := by
      intro hnil
      have := List.drop_eq_nil_iff.1 hnil
      omega
    rw [hdropk, adjMin_cons _ _ _ _ hne]
    have hX_le : adjMin (validPairs 0 pvals).length (1 + k + 1)
        ((sortedPOf pvals).drop (k + 1)) ≤ 1 :=
      adjMin_le_one _ _ _ hne
        (fun x hx => (sortedPOf_bounds pvals hb x (List.mem_of_mem_drop hx)).2)
    rw [min_eq_right (le_trans (min_le_right _ _) hX_le)]
    have hr1 : (1 + k : ℕ) = (k + 1 : ℕ) := by omega
    rw [hr1]
    have hr3 : (k + 1 + 1 : ℕ) = (1 + (k + 1) : ℕ) := by omega
    rw [hr3]

/-- C2 witness at a concrete two-entry input. -/
theorem fdr_bh_adjusted_stepdown_witness :
    (∀ k, k < (validPairs 0 [some (1/2), some (1/4)]).length →
      (fdr_bh [some (1/2), some (1/4)] (1/20)).adj_p.getD
          ((sortedPairsOf [some (1/2), some (1/4)]).getD k (0, 0)).1 none =
        some ((adjSortedOf [some (1/2), some (1/4)]).getD k 0)) ∧
    (adjSortedOf [some (1/2), some (1/4)]).getD
        ((validPairs 0 [some (1/2), some (1/4)]).length - 1) 0 =
      (sortedPOf [some (1/2), some (1/4)]).getD
        ((validPairs 0 [some (1/2), some (1/4)]).length - 1) 0 ∧
    (∀ k, k + 1 < (validPairs 0 [some (1/2), some (1/4)]).length →
      (adjSortedOf [some (1/2), some (1/4)]).getD k 0 =
        min ((((validPairs 0 [some (1/2), some (1/4)]).length : ℚ) / ((k + 1 : ℕ) : ℚ)) *
          (sortedPOf [some (1/2), some (1/4)]).getD k 0)
          ((adjSortedOf [some (1/2), some (1/4)]).getD (k + 1) 0)) ∧
    (∀ k, k < (validPairs 0 [some (1/2), some (1/4)]).length →
      (adjSortedOf [some (1/2), some (1/4)]).getD k 0 ≤ 1) :=
  fdr_bh_adjusted_stepdown [some (1/2), some (1/4)] (1/20)
    (by
      intro o ho x hox
      fin_cases ho <;>
        (have hx := Option.some.inj hox; rw [← hx]; norm_num))
    (by decide)

/-- C4: when no rank passes its Benjamini-Hochberg threshold, `fdr_bh`
returns critical p-value 0 and marks no entry significant. -/
theorem fdr_bh_no_rank_passes (pvals : List (Option ℚ)) (q : ℚ)
    (hm : 1 ≤ (validPairs 0 pvals).length)
    (hnone : ∀ k, k < (validPairs 0 pvals).length →
      ¬(sortedPOf pvals).getD k 0 ≤
        ((k + 1 : ℚ) / (((validPairs 0 pvals).length : ℕ) : ℚ)) * q) :
    (fdr_bh pvals q).crit_p = some 0 ∧ (fdr_bh pvals q).h.count true = 0 := by
  have hpass_nil : bhPassing (validPairs 0 pvals).length q (sortedPOf pvals) = [] := by
    rw [bhPassing_eq_nil_iff]
    exact hnone
  have hmne : validPairs 0 pvals ≠ [] := by
    intro h0
    rw [h0] at hm
    simp at hm
  constructor
  · rw [fdr_bh_crit_eq pvals q hmne, bhCrit, if_pos hpass_nil]
  · rw [List.count_eq_zero]
    intro htrue
    rcases List.mem_iff_getElem.1 htrue with ⟨i, hi, hie⟩
    have higet : (fdr_bh pvals q).h.getD i false = true := by
      rw [getElem_as_getD _ _ _ hi, List.get_eq_getElem]
      exact hie
    rcases hcase : pvals.getD i none with _ | v
    · rw [fdr_bh_flag_missing pvals q i hcase] at higet
      exact Bool.noConfusion higet
    · rw [fdr_bh_flag_valid pvals q i v hcase, flagOf, if_pos hpass_nil] at higet
      exact Bool.noConfusion higet

/-- C4 witness: the all-null example returns zero significant tests and
critical p-value 0. -/
theorem fdr_bh_no_rank_passes_witness :
    (fdr_bh allNullP (1/20)).crit_p = some 0 ∧
    (fdr_bh allNullP (1/20)).h.count true = 0 :=
  fdr_bh_no_rank_passes allNullP (1/20) (by rw [allNullP_m]; omega) allNullP_no_pass

/-- C9, counterexample: on an all-missing input the critical p-value returned
by `fdr_bh` is NaN (modelled `none`), not the sentinel zero. -/
theorem fdr_bh_all_missing_crit_not_zero :
    (fdr_bh [none] (1/20)).crit_p = none ∧
    (fdr_bh [none] (1/20)).crit_p ≠ some 0 := by
  constructor
  · rfl
  · intro h
    exact Option.noConfusion h

/-- C9, amended: for every non-empty all-missing input, `fdr_bh` returns all
flags false, all adjusted values undefined, and critical p-value NaN
(undefined), not zero. -/
theorem fdr_bh_all_missing (pvals : List (Option ℚ)) (q : ℚ) (hne : pvals ≠ [])
    (hmiss : ∀ o ∈ pvals, o = none) :
    fdr_bh pvals q = ⟨List.replicate pvals.length false, none,
      List.replicate pvals.length none⟩ := by
  have hn : ¬pvals.length = 0 := by
    simpa [List.length_eq_zero] using hne
  have hv : (validPairs 0 pvals).length = 0 := by
    rw [List.length_eq_zero, validPairs_eq_nil_iff]
    exact hmiss
  rw [fdr_bh, if_neg hn, if_pos hv]

/-- C9 witness at a concrete all-missing input. -/
theorem fdr_bh_all_missing_witness :
    fdr_bh [none, none] (1/20) = ⟨[false, false], none, [none, none]⟩ := by
  rw [fdr_bh_all_missing [none, none] (1/20) (by simp) (by decide)]
  rfl

/-- C10: `fdr_bh` is total: the output flag and adjusted sequences always
have the input's length, and the empty input yields empty flags, critical
p-value 0 and empty adjusted values. -/
theorem fdr_bh_total (pvals : List (Option ℚ)) (q : ℚ) :
    (fdr_bh pvals q).h.length = pvals.length ∧
    (fdr_bh pvals q).adj_p.length = pvals.length ∧
    fdr_bh ([] : List (Option ℚ)) q = ⟨[], some 0, []⟩ :=
  ⟨fdr_bh_h_length pvals q, fdr_bh_adj_length pvals q, rfl⟩

/-- C8, counterexample: inserting a missing entry into the EMPTY input vector
changes the critical p-value from 0 to NaN. -/
theorem fdr_bh_insert_empty_changes_crit :
    (fdr_bh ([] : List (Option ℚ)) (1/20)).crit_p = some 0 ∧
    (fdr_bh [none] (1/20)).crit_p = none ∧
    (fdr_bh ([] : List (Option ℚ)) (1/20)).crit_p ≠ (fdr_bh [none] (1/20)).crit_p := by
  refine ⟨rfl, rfl, ?_⟩
  intro h
  have : (some 0 : Option ℚ) = none := h
  exact Option.noConfusion this

/-- C3: when some rank passes its threshold and kstar is the largest passing
rank, the critical p-value equals the kstar-th sorted p-value, and a valid
entry is flagged significant if and only if its raw p-value is at most that
critical value (comparison by value, so ties beyond rank kstar are included). -/
theorem fdr_bh_crit_and_tied_flags (pvals : List (Option ℚ)) (q : ℚ) (kstar : ℕ)
    (hk : kstar < (validPairs 0 pvals).length)
    (hpass : (sortedPOf pvals).getD kstar 0 ≤
      ((kstar + 1 : ℚ) / (((validPairs 0 pvals).length : ℕ) : ℚ)) * q)
    (hmax : ∀ j, j < (validPairs 0 pvals).length →
      (sortedPOf pvals).getD j 0 ≤
        ((j + 1 : ℚ) / (((validPairs 0 pvals).length : ℕ) : ℚ)) * q → j ≤ kstar) :
    (fdr_bh pvals q).crit_p = some ((sortedPOf pvals).getD kstar 0) ∧
    ∀ i v, pvals.getD i none = some v →
      ((fdr_bh pvals q).h.getD i false = true ↔
        v ≤ (sortedPOf pvals).getD kstar 0) := by
  have hkmem : kstar ∈ bhPassing (validPairs 0 pvals).length q (sortedPOf pvals) :=
    (mem_bhPassing _ _ _ _).2 ⟨hk, hpass⟩
  have hkmax : ∀ j ∈ bhPassing (validPairs 0 pvals).length q (sortedPOf pvals),
      j ≤ kstar := by
    intro j hj
    rcases (mem_bhPassing _ _ _ _).1 hj with ⟨h1, h2⟩
    exact hmax j h1 h2
  have hcrit := bhCrit_eq (validPairs 0 pvals).length q (sortedPOf pvals) kstar
    hkmem hkmax
  have hne_pass : bhPassing (validPairs 0 pvals).length q (sortedPOf pvals) ≠ [] :=
    List.ne_nil_of_mem hkmem
  have hmne : validPairs 0 pvals ≠ [] := by
    intro h0
    rw [h0] at hk
    simp at hk
  constructor
  · rw [fdr_bh_crit_eq pvals q hmne, hcrit]
  · intro i v hv
    rw [fdr_bh_flag_valid pvals q i v hv, flagOf, if_neg hne_pass,
      decide_eq_true_eq, hcrit]

/-- C3 witness: the classic example, where kstar = 1 (0-based) is the largest
passing rank. -/
theorem fdr_bh_crit_and_tied_flags_witness :
    (fdr_bh classicP (1/20)).crit_p = some ((sortedPOf classicP).getD 1 0) ∧
    ∀ i v, classicP.getD i none = some v →
      ((fdr_bh classicP (1/20)).h.getD i false = true ↔
        v ≤ (sortedPOf classicP).getD 1 0) :=
  fdr_bh_crit_and_tied_flags classicP (1/20) 1
    (by rw [classicP_m]; omega)
    (by
      rw [classicP_sortedP, classicP_m]
      norm_num)
    (by
      simp only [classicP_sortedP, classicP_m]
      intro j hj hle
      by_contra hgt
      push_neg at hgt
      interval_cases j <;> norm_num at hle)

/-- C5: for inputs in [0,1], the adjusted p-values of `fdr_bh`, read in
ascending order of raw p-value, are non-decreasing and bounded by 1; ties are
covered since any two positions with equal raw values satisfy both
inequalities. -/
theorem fdr_bh_adj_monotone (pvals : List (Option ℚ)) (q : ℚ)
    (hb : ∀ o ∈ pvals, ∀ x : ℚ, o = some x → 0 ≤ x ∧ x ≤ 1) (i j : ℕ) (v w : ℚ)
    (hvi : pvals.getD i none = some v) (hwj : pvals.getD j none = some w)
    (hvw : v ≤ w) :
    ∃ a b : ℚ, (fdr_bh pvals q).adj_p.getD i none = some a ∧
      (fdr_bh pvals q).adj_p.getD j none = some b ∧ a ≤ b ∧ a ≤ 1 ∧ b ≤ 1 := by
  have hv_in : v ∈ sortedPOf pvals := by
    have hvp := validPairs_getD_mem pvals i v hvi
    have hmem : v ∈ (validPairs 0 pvals).map Prod.snd :=
      List.mem_map_of_mem Prod.snd hvp
    rw [validPairs_snd] at hmem
    exact ((sortedPOf_perm pvals).mem_iff).2 hmem
  have hw_in : w ∈ sortedPOf pvals := by
    have hwp := validPairs_getD_mem pvals j w hwj
    have hmem : w ∈ (validPairs 0 pvals).map Prod.snd :=
      List.mem_map_of_mem Prod.snd hwp
    rw [validPairs_snd] at hmem
    exact ((sortedPOf_perm pvals).mem_iff).2 hmem
  rcases List.mem_iff_getElem.1 hv_in with ⟨kv, hkv, hkve⟩
  rcases List.mem_iff_getElem.1 hw_in with ⟨kw, hkw, hkwe⟩
  have hkvD : (sortedPOf pvals).getD kv 0 = v := by
    rw [getElem_as_getD _ _ 0 hkv, List.get_eq_getElem]
    exact hkve
  have hkwD : (sortedPOf pvals).getD kw 0 = w := by
    rw [getElem_as_getD _ _ 0 hkw, List.get_eq_getElem]
    exact hkwe
  refine ⟨adjOf (validPairs 0 pvals).length (sortedPOf pvals) v,
    adjOf (validPairs 0 pvals).length (sortedPOf pvals) w,
    fdr_bh_adj_valid pvals q hb i v hvi,
    fdr_bh_adj_valid pvals q hb j w hwj, ?_, ?_, ?_⟩
  · rw [← hkvD, ← hkwD]
    exact adjOf_mono _ _ (sortedPOf_sorted pvals) kv kw hkv hkw
      (by rw [hkvD, hkwD]; exact hvw)
  · rw [← hkvD]
    exact adjOf_le_one _ _ (sortedPOf_sorted pvals)
      (fun x hx => (sortedPOf_bounds pvals hb x hx).2) kv hkv
  · rw [← hkwD]
    exact adjOf_le_one _ _ (sortedPOf_sorted pvals)
      (fun x hx => (sortedPOf_bounds pvals hb x hx).2) kw hkw

/-- C5 witness at a concrete input with a tie. -/
theorem fdr_bh_adj_monotone_witness :
    ∃ a b : ℚ,
      (fdr_bh [some (3/10), some (3/10), some (1/2)] (1/20)).adj_p.getD 0 none = some a ∧
      (fdr_bh [some (3/10), some (3/10), some (1/2)] (1/20)).adj_p.getD 1 none = some b ∧
      a ≤ b ∧ a ≤ 1 ∧ b ≤ 1 :=
  fdr_bh_adj_monotone [some (3/10), some (3/10), some (1/2)] (1/20)
    (by
      intro o ho x hox
      fin_cases ho <;>
        (have hx := Option.some.inj hox; rw [← hx]; norm_num))
    0 1 (3/10) (3/10) rfl rfl (le_refl _)

/-- C6: for inputs in [0,1] and every q, comparing a valid entry's adjusted
p-value against q reproduces exactly that entry's significance flag. -/
theorem fdr_bh_adjusted_decides (pvals : List (Option ℚ)) (q : ℚ)
    (hb : ∀ o ∈ pvals, ∀ x : ℚ, o = some x → 0 ≤ x ∧ x ≤ 1) (i : ℕ) (v : ℚ)
    (hv : pvals.getD i none = some v) :
    ∃ a : ℚ, (fdr_bh pvals q).adj_p.getD i none = some a ∧
      (a ≤ q ↔ (fdr_bh pvals q).h.getD i false = true) := by
  have hv_in : v ∈ sortedPOf pvals := by
    have hvp := validPairs_getD_mem pvals i v hv
    have hmem : v ∈ (validPairs 0 pvals).map Prod.snd :=
      List.mem_map_of_mem Prod.snd hvp
    rw [validPairs_snd] at hmem
    exact ((sortedPOf_perm pvals).mem_iff).2 hmem
  rcases List.mem_iff_getElem.1 hv_in with ⟨kv, hkv, hkve⟩
  have hkvD : (sortedPOf pvals).getD kv 0 = v := by
    rw [getElem_as_getD _ _ 0 hkv, List.get_eq_getElem]
    exact hkve
  refine ⟨adjOf (validPairs 0 pvals).length (sortedPOf pvals) v,
    fdr_bh_adj_valid pvals q hb i v hv, ?_⟩
  rw [fdr_bh_flag_valid pvals q i v hv, ← hkvD]
  exact adjOf_le_iff_flagOf (validPairs 0 pvals).length q (sortedPOf pvals)
    (sortedPOf_sorted pvals) (sortedPOf_bounds pvals hb) (sortedPOf_length pvals)
    kv hkv

/-- C6 witness at a concrete input. -/
theorem fdr_bh_adjusted_decides_witness :
    ∃ a : ℚ,
      (fdr_bh [some (3/10), some (3/10), some (1/2)] (1/20)).adj_p.getD 0 none =
        some a ∧
      (a ≤ 1/20 ↔
        (fdr_bh [some (3/10), some (3/10), some (1/2)] (1/20)).h.getD 0 false = true) :=
  fdr_bh_adjusted_decides [some (3/10), some (3/10), some (1/2)] (1/20)
    (by
      intro o ho x hox
      fin_cases ho <;>
        (have hx := Option.some.inj hox; rw [← hx]; norm_num))
    0 (3/10) rfl

/-- C7: for p-value vectors (entries in [0,1] or missing), permuting the
input and re-running `fdr_bh` permutes the significance flags and adjusted
p-values by exactly the same permutation and leaves the critical p-value
unchanged. -/
theorem fdr_bh_perm_equivariant (pvals : List (Option ℚ)) (q : ℚ)
    (hb : ∀ o ∈ pvals, ∀ x : ℚ, o = some x → 0 ≤ x ∧ x ≤ 1)
    (perm : List ℕ) (hperm : List.Perm perm (List.range pvals.length)) :
    fdr_bh (perm.map (fun j => pvals.getD j none)) q =
      ⟨perm.map (fun j => (fdr_bh pvals q).h.getD j false),
        (fdr_bh pvals q).crit_p,
        perm.map (fun j => (fdr_bh pvals q).adj_p.getD j none)⟩ := by
  have hlen_perm : perm.length = pvals.length := by
    simpa using hperm.length_eq
  have hperm_vals : List.Perm (perm.map (fun j => pvals.getD j none)) pvals := by
    have h1 := hperm.map (fun j => pvals.getD j none)
    rwa [map_getD_range pvals none] at h1
  have hn' : (perm.map (fun j => pvals.getD j none)).length = pvals.length := by
    simpa using hperm_vals.length_eq
  have hfm : List.Perm ((perm.map (fun j => pvals.getD j none)).filterMap id)
      (pvals.filterMap id) := hperm_vals.filterMap id
  have hs_eq : sortedPOf (perm.map (fun j => pvals.getD j none)) = sortedPOf pvals :=
    sortedPOf_congr hfm
  have hm_eq : (validPairs 0 (perm.map (fun j => pvals.getD j none))).length =
      (validPairs 0 pvals).length := by
    have e1 := congrArg List.length
      (validPairs_snd (perm.map (fun j => pvals.getD j none)) 0)
    have e2 := congrArg List.length (validPairs_snd pvals 0)
    simp only [List.length_map] at e1 e2
    rw [e1, e2]
    exact hfm.length_eq
  have hval : ∀ t, t < perm.length →
      (perm.map (fun j => pvals.getD j none)).getD t none =
        pvals.getD (perm.getD t 0) none :=
    fun t ht => getD_map perm _ none 0 t ht
  refine FDRResult.ext_components _ _ ?_ ?_ ?_
  · refine List.ext_getElem ?_ ?_
    · rw [fdr_bh_h_length, hn', List.length_map, hlen_perm]
    · intro i ht1 ht2
      have htp : i < perm.length := by simpa using ht2
      have hL : (fdr_bh (perm.map (fun j => pvals.getD j none)) q).h.getD i false =
          (fdr_bh (perm.map (fun j => pvals.getD j none)) q).h.get ⟨i, ht1⟩ :=
        getElem_as_getD _ _ _ ht1
      rw [List.get_eq_getElem] at hL
      rw [← hL]
      have hR : (perm.map (fun j => (fdr_bh pvals q).h.getD j false))[i] =
          (fdr_bh pvals q).h.getD (perm.getD i 0) false := by
        rw [List.getElem_map]
        congr 1
        rw [getElem_as_getD _ _ 0 htp, List.get_eq_getElem]
      rw [hR]
      rcases hcase : pvals.getD (perm.getD i 0) none with _ | v
      · rw [fdr_bh_flag_missing pvals q _ hcase,
          fdr_bh_flag_missing _ q i (by rw [hval i htp]; exact hcase)]
      · rw [fdr_bh_flag_valid pvals q _ v hcase,
          fdr_bh_flag_valid _ q i v (by rw [hval i htp]; exact hcase), hs_eq, hm_eq]
  · by_cases hmz : validPairs 0 pvals = []
    · by_cases hnz : pvals = []
      · subst hnz
        have hpnil : perm = [] := List.Perm.eq_nil (by simpa using hperm)
        subst hpnil
        rfl
      · have hmz' : validPairs 0 (perm.map (fun j => pvals.getD j none)) = [] := by
          rw [← List.length_eq_zero, hm_eq, List.length_eq_zero]
          exact hmz
        have hne' : perm.map (fun j => pvals.getD j none) ≠ [] := by
          intro h0
          apply hnz
          rw [← List.length_eq_zero, ← hn', h0]
          rfl
        rw [fdr_bh_crit_nan _ q hne' hmz', fdr_bh_crit_nan pvals q hnz hmz]
    · have hmz' : validPairs 0 (perm.map (fun j => pvals.getD j none)) ≠ [] := by
        intro h0
        apply hmz
        rw [← List.length_eq_zero, ← hm_eq, List.length_eq_zero]
        exact h0
      rw [fdr_bh_crit_eq _ q hmz', fdr_bh_crit_eq pvals q hmz, hs_eq, hm_eq]
  · refine List.ext_getElem ?_ ?_
    · rw [fdr_bh_adj_length, hn', List.length_map, hlen_perm]
    · intro i ht1 ht2
      have htp : i < perm.length := by simpa using ht2
      have hb' : ∀ o ∈ perm.map (fun j => pvals.getD j none), ∀ x : ℚ,
          o = some x → 0 ≤ x ∧ x ≤ 1 := fun o ho => hb o (hperm_vals.mem_iff.1 ho)
      have hL : (fdr_bh (perm.map (fun j => pvals.getD j none)) q).adj_p.getD i none =
          (fdr_bh (perm.map (fun j => pvals.getD j none)) q).adj_p.get ⟨i, ht1⟩ :=
        getElem_as_getD _ _ _ ht1
      rw [List.get_eq_getElem] at hL
      rw [← hL]
      have hR : (perm.map (fun j => (fdr_bh pvals q).adj_p.getD j none))[i] =
          (fdr_bh pvals q).adj_p.getD (perm.getD i 0) none := by
        rw [List.getElem_map]
        congr 1
        rw [getElem_as_getD _ _ 0 htp, List.get_eq_getElem]
      rw [hR]
      rcases hcase : pvals.getD (perm.getD i 0) none with _ | v
      · rw [fdr_bh_adj_missing pvals q _ hcase,
          fdr_bh_adj_missing _ q i (by rw [hval i htp]; exact hcase)]
      · rw [fdr_bh_adj_valid pvals q hb _ v hcase,
          fdr_bh_adj_valid _ q hb' i v (by rw [hval i htp]; exact hcase), hs_eq, hm_eq]

/-- C7 witness at a concrete input and permutation. -/
theorem fdr_bh_perm_equivariant_witness :
    fdr_bh ([2, 0, 1].map (fun j => [some (1/2), some (1/4), none].getD j none)) (1/20) =
      ⟨[2, 0, 1].map
          (fun j => (fdr_bh [some (1/2), some (1/4), none] (1/20)).h.getD j false),
        (fdr_bh [some (1/2), some (1/4), none] (1/20)).crit_p,
        [2, 0, 1].map
          (fun j => (fdr_bh [some (1/2), some (1/4), none] (1/20)).adj_p.getD j none)⟩ :=
  fdr_bh_perm_equivariant [some (1/2), some (1/4), none] (1/20)
    (by
      intro o ho x hox
      fin_cases ho
      · have hx := Option.some.inj hox
        rw [← hx]
        norm_num
      · have hx := Option.some.inj hox
        rw [← hx]
        norm_num
      · exact Option.noConfusion hox)
    [2, 0, 1] (by decide)

theorem map_eq_self_of_eq {β : Type} :
    ∀ (l : List β) (f : β → β), (∀ p ∈ l, f p = p) → l.map f = l
  | [], _, _ => rfl
  | a :: l, f, h => by
    rw [List.map_cons, h a (by simp),
      map_eq_self_of_eq l f (fun p hp => h p (List.mem_cons_of_mem _ hp))]

/-- C8, amended: missing entries produce flag false and adjusted NaN at their
positions and outputs keep the input length; and for every NON-EMPTY input of
p-values in [0,1], inserting a missing entry at any position leaves the
critical p-value and the flags and adjusted values of the remaining entries
unchanged (the empty input is excluded: there insertion changes the critical
p-value from 0 to NaN). -/
theorem fdr_bh_missing_handling (pvals : List (Option ℚ)) (q : ℚ)
    (hb : ∀ o ∈ pvals, ∀ x : ℚ, o = some x → 0 ≤ x ∧ x ≤ 1) (t : ℕ)
    (ht : t ≤ pvals.length) (hne : pvals ≠ []) :
    ((fdr_bh pvals q).h.length = pvals.length ∧
     (fdr_bh pvals q).adj_p.length = pvals.length ∧
     ∀ i, pvals.getD i none = none →
       (fdr_bh pvals q).h.getD i false = false ∧
       (fdr_bh pvals q).adj_p.getD i none = none) ∧
    fdr_bh (pvals.take t ++ none :: pvals.drop t) q =
      ⟨(fdr_bh pvals q).h.take t ++ false :: (fdr_bh pvals q).h.drop t,
        (fdr_bh pvals q).crit_p,
        (fdr_bh pvals q).adj_p.take t ++ none :: (fdr_bh pvals q).adj_p.drop t⟩ := by
  refine ⟨⟨fdr_bh_h_length pvals q, fdr_bh_adj_length pvals q,
    fun i hi => ⟨fdr_bh_flag_missing pvals q i hi, fdr_bh_adj_missing pvals q i hi⟩⟩, ?_⟩
  set pv' := pvals.take t ++ none :: pvals.drop t with hpv
  have htake_len : (pvals.take t).length = t := by
    rw [List.length_take]
    omega
  have hn' : pv'.length = pvals.length + 1 := by
    rw [hpv, List.length_append, htake_len, List.length_cons, List.length_drop]
    omega
  have hne' : pv' ≠ [] := by
    intro h0
    have := congrArg List.length h0
    rw [hn'] at this
    simp at this
  have e3 : validPairs 0 pvals = validPairs 0 (pvals.take t) ++
      (validPairs 0 (pvals.drop t)).map (fun p => (p.1 + t, p.2)) := by
    have h1 : validPairs 0 (pvals.take t ++ pvals.drop t) =
        validPairs 0 (pvals.take t) ++
          validPairs (0 + (pvals.take t).length) (pvals.drop t) :=
      validPairs_append _ _ 0
    rw [List.take_append_drop] at h1
    rw [h1, Nat.zero_add, htake_len]
    congr 1
    have := validPairs_shift t (pvals.drop t) 0
    simpa using this
  have e1 : validPairs 0 pv' = validPairs 0 (pvals.take t) ++
      (validPairs 0 (pvals.drop t)).map (fun p => (p.1 + (t + 1), p.2)) := by
    rw [hpv, validPairs_append (pvals.take t) (none :: pvals.drop t) 0, Nat.zero_add,
      htake_len]
    congr 1
    show validPairs (t + 1) (pvals.drop t) = _
    have := validPairs_shift (t + 1) (pvals.drop t) 0
    simpa using this
  have hvp' : validPairs 0 pv' = (validPairs 0 pvals).map
      (fun p => (if p.1 < t then p.1 else p.1 + 1, p.2)) := by
    rw [e1, e3, List.map_append]
    congr 1
    · refine (map_eq_self_of_eq _ _ ?_).symm
      intro p hp
      have hlt := (validPairs_fst_lt (pvals.take t) 0 p hp).2
      rw [Nat.zero_add, htake_len] at hlt
      simp [hlt]
    · rw [List.map_map]
      refine List.map_congr_left ?_
      intro p hp
      simp only [Function.comp_apply]
      rw [if_neg (by omega)]
      simp [Nat.add_assoc]
  have hs' : sortedPOf pv' = sortedPOf pvals := by
    rw [sortedPOf, sortedPOf, sortedPairsOf, sortedPairsOf, hvp',
      insertionSort_map pairLe pairLe
        (fun p : ℕ × ℚ => (if p.1 < t then p.1 else p.1 + 1, p.2))
        (fun a b => Iff.rfl), List.map_map]
    exact List.map_congr_left (fun p _ => rfl)
  have hm' : (validPairs 0 pv').length = (validPairs 0 pvals).length := by
    rw [hvp', List.length_map]
  have hb' : ∀ o ∈ pv', ∀ x : ℚ, o = some x → 0 ≤ x ∧ x ≤ 1 := by
    intro o ho x hox
    rw [hpv] at ho
    rcases List.mem_append.1 ho with h1 | h1
    · exact hb o (List.mem_of_mem_take h1) x hox
    · rcases List.mem_cons.1 h1 with h2 | h2
      · rw [h2] at hox
        exact Option.noConfusion hox
      · exact hb o (List.mem_of_mem_drop h2) x hox
  refine FDRResult.ext_components _ _ ?_ ?_ ?_
  · refine List.ext_getElem ?_ ?_
    · rw [fdr_bh_h_length, hn', List.length_append, List.length_take,
        List.length_cons, List.length_drop, fdr_bh_h_length]
      omega
    · intro i hi1 hi2
      have hth : t ≤ (fdr_bh pvals q).h.length := by
        rw [fdr_bh_h_length]
        exact ht
      have hL : (fdr_bh pv' q).h.getD i false = (fdr_bh pv' q).h.get ⟨i, hi1⟩ :=
        getElem_as_getD _ _ false hi1
      rw [List.get_eq_getElem] at hL
      rw [← hL]
      have hR : ((fdr_bh pvals q).h.take t ++ false :: (fdr_bh pvals q).h.drop t).getD
          i false = ((fdr_bh pvals q).h.take t ++
            false :: (fdr_bh pvals q).h.drop t).get ⟨i, hi2⟩ :=
        getElem_as_getD _ _ false hi2
      rw [List.get_eq_getElem] at hR
      rw [← hR, insert_getD _ false false t i hth]
      have hpv_getD := insert_getD pvals none none t i ht
      rw [← hpv] at hpv_getD
      rcases Nat.lt_or_ge i t with hc1 | hc1
      · rw [if_pos hc1] at hpv_getD ⊢
        rcases hcase : pvals.getD i none with _ | v
        · rw [fdr_bh_flag_missing pvals q i hcase,
            fdr_bh_flag_missing pv' q i (by rw [hpv_getD]; exact hcase)]
        · rw [fdr_bh_flag_valid pvals q i v hcase,
            fdr_bh_flag_valid pv' q i v (by rw [hpv_getD]; exact hcase), hs', hm']
      · rcases Nat.eq_or_lt_of_le hc1 with hc2 | hc2
        · rw [if_neg (by omega), if_pos hc2.symm] at hpv_getD ⊢
          exact fdr_bh_flag_missing pv' q i hpv_getD
        · rw [if_neg (by omega), if_neg (by omega)] at hpv_getD ⊢
          rcases hcase : pvals.getD (i - 1) none with _ | v
          · rw [fdr_bh_flag_missing pvals q _ hcase,
              fdr_bh_flag_missing pv' q i (by rw [hpv_getD]; exact hcase)]
          · rw [fdr_bh_flag_valid pvals q _ v hcase,
              fdr_bh_flag_valid pv' q i v (by rw [hpv_getD]; exact hcase), hs', hm']
  · by_cases hmz : validPairs 0 pvals = []
    · have hmz' : validPairs 0 pv' = [] := by
        rw [← List.length_eq_zero, hm', List.length_eq_zero]
        exact hmz
      rw [fdr_bh_crit_nan pv' q hne' hmz', fdr_bh_crit_nan pvals q hne hmz]
    · have hmz' : validPairs 0 pv' ≠ [] := by
        intro h0
        apply hmz
        rw [← List.length_eq_zero, ← hm', List.length_eq_zero]
        exact h0
      rw [fdr_bh_crit_eq pv' q hmz', fdr_bh_crit_eq pvals q hmz, hs', hm']
  · refine List.ext_getElem ?_ ?_
    · rw [fdr_bh_adj_length, hn', List.length_append, List.length_take,
        List.length_cons, List.length_drop, fdr_bh_adj_length]
      omega
    · intro i hi1 hi2
      have hth : t ≤ (fdr_bh pvals q).adj_p.length := by
        rw [fdr_bh_adj_length]
        exact ht
      have hL : (fdr_bh pv' q).adj_p.getD i none = (fdr_bh pv' q).adj_p.get ⟨i, hi1⟩ :=
        getElem_as_getD _ _ none hi1
      rw [List.get_eq_getElem] at hL
      rw [← hL]
      have hR : ((fdr_bh pvals q).adj_p.take t ++
          none :: (fdr_bh pvals q).adj_p.drop t).getD i none =
          ((fdr_bh pvals q).adj_p.take t ++
            none :: (fdr_bh pvals q).adj_p.drop t).get ⟨i, hi2⟩ :=
        getElem_as_getD _ _ none hi2
      rw [List.get_eq_getElem] at hR
      rw [← hR, insert_getD _ none none t i hth]
      have hpv_getD := insert_getD pvals none none t i ht
      rw [← hpv] at hpv_getD
      rcases Nat.lt_or_ge i t with hc1 | hc1
      · rw [if_pos hc1] at hpv_getD ⊢
        rcases hcase : pvals.getD i none with _ | v
        · rw [fdr_bh_adj_missing pvals q i hcase,
            fdr_bh_adj_missing pv' q i (by rw [hpv_getD]; exact hcase)]
        · rw [fdr_bh_adj_valid pvals q hb i v hcase,
            fdr_bh_adj_valid pv' q hb' i v (by rw [hpv_getD]; exact hcase), hs', hm']
      · rcases Nat.eq_or_lt_of_le hc1 with hc2 | hc2
        · rw [if_neg (by omega), if_pos hc2.symm] at hpv_getD ⊢
          exact fdr_bh_adj_missing pv' q i hpv_getD
        · rw [if_neg (by omega), if_neg (by omega)] at hpv_getD ⊢
          rcases hcase : pvals.getD (i - 1) none with _ | v
          · rw [fdr_bh_adj_missing pvals q _ hcase,
              fdr_bh_adj_missing pv' q i (by rw [hpv_getD]; exact hcase)]
          · rw [fdr_bh_adj_valid pvals q hb _ v hcase,
              fdr_bh_adj_valid pv' q hb' i v (by rw [hpv_getD]; exact hcase), hs', hm']

/-- C8 witness at a concrete one-entry input, inserting at the front. -/
theorem fdr_bh_missing_handling_witness :
    ((fdr_bh [some (1/2)] (1/20)).h.length = [some (1/2)].length ∧
     (fdr_bh [some (1/2)] (1/20)).adj_p.length = [some (1/2)].length ∧
     ∀ i, ([some (1/2)] : List (Option ℚ)).getD i none = none →
       (fdr_bh [some (1/2)] (1/20)).h.getD i false = false ∧
       (fdr_bh [some (1/2)] (1/20)).adj_p.getD i none = none) ∧
    fdr_bh (([some (1/2)] : List (Option ℚ)).take 0 ++
        none :: ([some (1/2)] : List (Option ℚ)).drop 0) (1/20) =
      ⟨(fdr_bh [some (1/2)] (1/20)).h.take 0 ++
          false :: (fdr_bh [some (1/2)] (1/20)).h.drop 0,
        (fdr_bh [some (1/2)] (1/20)).crit_p,
        (fdr_bh [some (1/2)] (1/20)).adj_p.take 0 ++
          none :: (fdr_bh [some (1/2)] (1/20)).adj_p.drop 0⟩ :=
  fdr_bh_missing_handling [some (1/2)] (1/20)
    (by
      intro o ho x hox
      fin_cases ho
      have hx := Option.some.inj hox
      rw [← hx]
      norm_num)
    0 (Nat.zero_le _) (by simp)
